import Mathlib

/-!
# umoci: mark-and-sweep garbage collection of the OCI content-addressable store

A shallow embedding of `oci/cas/gc.go` (`childDescriptors`, `gcState.mark`, `GC`)
and of the parts of `cmd/umoci/unpack.go` that name the mtree file and fetch the
image config (`mtreeName`, `mtreePath`, `getConfig`).

* Go values seen through `reflect` are the finite trees of `Value`.
* The CAS engine is an interface of the repository; it is modelled by the record
  `Engine`, whose read operations are pure and whose `DeleteBlob` returns the
  updated store.
* Every engine call made by the code is appended to a trace, so that the order
  of calls can be stated.
* `gcState.mark` is recursive on the blob graph; its embedding takes a
  recursion budget and answers `none` when the budget is exhausted.  That a
  budget larger than the inventory always suffices is a theorem.
-/

namespace Umoci

/-! ## Data model -/

/-- An `ispec.Descriptor`: media type, digest and size of a blob. -/
structure Descriptor where
  MediaType : String
  Digest : String
  Size : Int
  deriving DecidableEq, Repr

/-- A Go `error` value.  `errors.Wrap(err, msg)` keeps its cause. -/
inductive Error where
  | base (msg : String)
  | wrap (msg : String) (cause : Error)
  deriving DecidableEq, Repr

/-- The way a call stops abnormally: a returned `error`, or a run-time panic
that unwinds the whole call stack (nothing in `gc.go` recovers). -/
inductive Failure where
  | error (err : Error)
  | panic (msg : String)
  deriving DecidableEq, Repr

/-- Wrapping with `errors.Wrap`/`errors.Wrapf` applies to the `err != nil`
branch of a call; a panic passes through untouched. -/
def Failure.ofError (msg : String) (err : Error) : Failure :=
  Failure.error (Error.wrap msg err)

/-- A Go value as `reflect.ValueOf` presents it to `childDescriptors`.

* `invalid`: the untyped `nil` interface (`!V.IsValid()`);
* `descriptor d`: a value whose type is `ispec.Descriptor`;
* `nilptr` / `ptr v`: a pointer (`reflect.Ptr`), nil or pointing at `v`;
* `array vs`: a fixed-size array (`reflect.Array`);
* `slice vs`: a slice (`reflect.Slice`), the nil slice being `slice []`;
* `struct pkgPath fields`: a struct (`reflect.Struct`) of a type declared in
  package `pkgPath`, other than `ispec.Descriptor`, with its fields in
  declaration order (the fields are exported: the walker reads the fields of
  the structs of the package of `ispec.Descriptor` only, and these declare no
  unexported field);
* `map entries`: a map (`reflect.Map`);
* `other`: every remaining kind (booleans, numbers, strings, channels,
  functions). -/
inductive Value where
  | invalid
  | descriptor (d : Descriptor)
  | nilptr
  | ptr (elem : Value)
  | array (elems : List Value)
  | slice (elems : List Value)
  | struct (pkgPath : String) (fields : List Value)
  | map (entries : List (Value × Value))
  | other

/-- The package path of `descriptorType`, the type of `ispec.Descriptor{}`. -/
def descriptorPkgPath : String := "github.com/opencontainers/image-spec/specs-go/v1"

/-- The panic raised by `reflect.Value.Slice` on an array that is not
addressable.  `reflect.ValueOf(i)` never yields an addressable value. -/
def sliceOfUnaddressableArray : String := "reflect.Value.Slice: slice of unaddressable array"

/-! ## `childDescriptors` -/

mutual
/-- The function `childDescriptors` of `gc.go`: the descriptors held by a value.
The result is `Except.error msg` when the call panics with `msg`. -/
def childDescriptors : Value → Except String (List Descriptor)
  | Value.invalid => Except.ok []
  | Value.descriptor d => Except.ok [d]
  | Value.nilptr => Except.ok []
  | Value.ptr elem => childDescriptors elem
  | Value.array _ => Except.error sliceOfUnaddressableArray
  | Value.slice elems => childDescriptorsEach elems
  | Value.struct pkgPath fields =>
    if pkgPath ≠ descriptorPkgPath then Except.ok []
    else childDescriptorsEach fields
  | Value.map _ => Except.ok []
  | Value.other => Except.ok []
/-- The loops `children = append(children, childDescriptors(...)...)` over the
elements of a slice and over the fields of a struct. -/
def childDescriptorsEach : List Value → Except String (List Descriptor)
  | [] => Except.ok []
  | v :: vs =>
    match childDescriptors v with
    | Except.error p => Except.error p
    | Except.ok here =>
      match childDescriptorsEach vs with
      | Except.error p => Except.error p
      | Except.ok rest => Except.ok (here ++ rest)
end

/-! ## The CAS engine -/

/-- A decoded blob, as returned by `FromDescriptor`. -/
structure Blob where
  MediaType : String
  Digest : String
  Size : Int
  Data : Value

/-- Modelled from the spec: the CAS engine, the interface `cas.Engine` whose
declaration is outside the two source files.  It is a durable blob store keyed
by digest that resolves references, lists, fetches and deletes blobs and has a
compaction hook (spec, sections 2 and 6).

* `references` is what `ListReferences` answers;
* `reference name` is what `GetReference name` answers;
* `blobs` is the inventory: the digests of the blobs present in the store;
* `decode d` is the outcome of fetching and decoding a present blob through the
  descriptor `d` (unsupported media type, corrupt blob and I/O errors are
  errors of `decode`);
* `listBlobsError`, `deleteBlobError` and `gcError` say when `ListBlobs`,
  `DeleteBlob digest` and the compaction hook fail. -/
structure Engine where
  references : Except Error (List String)
  reference : String → Except Error Descriptor
  blobs : List String
  decode : Descriptor → Except Error Value
  listBlobsError : Option Error
  deleteBlobError : String → Option Error
  gcError : Option Error

/-- An engine call, as recorded in the trace of a run. -/
inductive Call where
  | ListReferences
  | GetReference (name : String)
  | FromDescriptor (descriptor : Descriptor)
  | ListBlobs
  | DeleteBlob (digest : String)
  | GC
  deriving DecidableEq, Repr

/-- Modelled from the spec: `ListReferences() -> sequence of name`. -/
def Engine.ListReferences (engine : Engine) : Except Error (List String) :=
  engine.references

/-- Modelled from the spec: `GetReference(name) -> Descriptor`. -/
def Engine.GetReference (engine : Engine) (name : String) : Except Error Descriptor :=
  engine.reference name

/-- The error of fetching a blob that is absent from the store. -/
def blobNotFound (digest : String) : Error := Error.base ("blob not found: " ++ digest)

/-- Modelled from the spec: `FromDescriptor(descriptor) -> Blob`, fetch and
decode.  A blob absent from the store is not found; a present one is decoded
according to the descriptor. -/
def FromDescriptor (engine : Engine) (descriptor : Descriptor) : Except Error Blob :=
  if descriptor.Digest ∈ engine.blobs then
    match engine.decode descriptor with
    | Except.error err => Except.error err
    | Except.ok data =>
      Except.ok
        { MediaType := descriptor.MediaType, Digest := descriptor.Digest,
          Size := descriptor.Size, Data := data }
  else Except.error (blobNotFound descriptor.Digest)

/-- Modelled from the spec: `ListBlobs() -> sequence of digest`, a snapshot of
the full inventory. -/
def Engine.ListBlobs (engine : Engine) : Except Error (List String) :=
  match engine.listBlobsError with
  | some err => Except.error err
  | none => Except.ok engine.blobs

/-- Modelled from the spec: `DeleteBlob(digest) -> ok|error`.  A successful
deletion removes the digest from the inventory (and is idempotent: deleting an
absent blob succeeds); a failed one leaves the store as it was. -/
def Engine.DeleteBlob (engine : Engine) (digest : String) : Except Error Engine :=
  match engine.deleteBlobError digest with
  | some err => Except.error err
  | none => Except.ok { engine with blobs := engine.blobs.filter (fun b => b ≠ digest) }

/-- Modelled from the spec: `GC() -> ok|error`, the physical compaction hook;
it changes nothing of the logical store. -/
def Engine.GC (engine : Engine) : Except Error Engine :=
  match engine.gcError with
  | some err => Except.error err
  | none => Except.ok engine

/-! ## `gcState.mark` -/

/-- The struct `gcState`: the engine and the black set (a Go
`map[string]struct{}`, kept as the list of its keys, latest first). -/
structure gcState where
  engine : Engine
  black : List String

/-- What a call leaves behind: the collector state, the trace of engine calls
so far, and the returned failure (`none` for a `nil` error). -/
structure Marked where
  gc : gcState
  trace : List Call
  err : Option Failure

/-- The loop `for _, child := range children { if err := step(child); err != nil
{ return err } }` followed by `return nil`, over a step that may exhaust its
budget. -/
def forEachChild (step : gcState → List Call → Descriptor → Option Marked) :
    gcState → List Call → List Descriptor → Option Marked
  | gc, trace, [] => some { gc := gc, trace := trace, err := none }
  | gc, trace, child :: rest =>
    match step gc trace child with
    | none => none
    | some r =>
      match r.err with
      | some err => some { gc := r.gc, trace := r.trace, err := some err }
      | none => forEachChild step r.gc r.trace rest

/-- The method `gcState.mark` of `gc.go`.  The first argument bounds the depth
of the recursion; `none` means that the bound was reached. -/
def mark : Nat → gcState → List Call → Descriptor → Option Marked
  | 0, _, _, _ => none
  | fuel + 1, gc, trace, descriptor =>
    if descriptor.Digest ∈ gc.black then
      some { gc := gc, trace := trace, err := none }
    else
      let gc1 : gcState := { gc with black := descriptor.Digest :: gc.black }
      let trace1 := trace ++ [Call.FromDescriptor descriptor]
      match FromDescriptor gc.engine descriptor with
      | Except.error err => some { gc := gc1, trace := trace1, err := some (Failure.error err) }
      | Except.ok blob =>
        match childDescriptors blob.Data with
        | Except.error p => some { gc := gc1, trace := trace1, err := some (Failure.panic p) }
        | Except.ok children => forEachChild (mark fuel) gc1 trace1 children

/-! ## `GC` -/

/-- The first loop of `GC`: resolve every reference name, in order. -/
def gatherRoots (engine : Engine) :
    List String → List Descriptor → List Call → Except Failure (List Descriptor) × List Call
  | [], root, trace => (Except.ok root, trace)
  | name :: names, root, trace =>
    match engine.GetReference name with
    | Except.error err =>
      (Except.error (Failure.ofError ("get root " ++ name) err), trace ++ [Call.GetReference name])
    | Except.ok descriptor =>
      gatherRoots engine names (root ++ [descriptor]) (trace ++ [Call.GetReference name])

/-- The second loop of `GC`: mark from every root, in index order, wrapping an
error of `mark` with the index of the root. -/
def markRoots (fuel : Nat) : gcState → List Call → Nat → List Descriptor → Option Marked
  | gc, trace, _, [] => some { gc := gc, trace := trace, err := none }
  | gc, trace, idx, descriptor :: rest =>
    match mark fuel gc trace descriptor with
    | none => none
    | some r =>
      match r.err with
      | some (Failure.error err) =>
        some { gc := r.gc, trace := r.trace,
               err := some (Failure.ofError ("marking root " ++ toString idx) err) }
      | some (Failure.panic p) =>
        some { gc := r.gc, trace := r.trace, err := some (Failure.panic p) }
      | none => markRoots fuel r.gc r.trace (idx + 1) rest

/-- What the sweep loop leaves behind. -/
structure Swept where
  engine : Engine
  n : Nat
  trace : List Call
  err : Option Failure

/-- The third loop of `GC`: delete every listed digest that is not black. -/
def sweep (black : List String) : Engine → Nat → List Call → List String → Swept
  | engine, n, trace, [] => { engine := engine, n := n, trace := trace, err := none }
  | engine, n, trace, digest :: rest =>
    if digest ∈ black then sweep black engine n trace rest
    else
      match engine.DeleteBlob digest with
      | Except.error err =>
        { engine := engine, n := n, trace := trace ++ [Call.DeleteBlob digest],
          err := some (Failure.ofError ("remove unmarked blob " ++ digest) err) }
      | Except.ok engine1 =>
        sweep black engine1 (n + 1) (trace ++ [Call.DeleteBlob digest]) rest

/-- A finished run of `GC`: the returned failure (`none` for `nil`), the store
afterwards, the black set and the deletion counter `n` as they stood when the
run ended, and the engine calls made, in order. -/
structure GCRun where
  err : Option Failure
  engine : Engine
  black : List String
  n : Nat
  trace : List Call

/-- The function `GC` of `gc.go`.  The first argument is the recursion budget
handed to `mark`. -/
def GC (fuel : Nat) (engine : Engine) : Option GCRun :=
  match engine.ListReferences with
  | Except.error err =>
    some { err := some (Failure.ofError "get roots" err), engine := engine, black := [], n := 0,
           trace := [Call.ListReferences] }
  | Except.ok names =>
    match gatherRoots engine names [] [Call.ListReferences] with
    | (Except.error f, trace1) =>
      some { err := some f, engine := engine, black := [], n := 0, trace := trace1 }
    | (Except.ok root, trace1) =>
      match markRoots fuel { engine := engine, black := [] } trace1 0 root with
      | none => none
      | some m =>
        match m.err with
        | some f =>
          some { err := some f, engine := engine, black := m.gc.black, n := 0, trace := m.trace }
        | none =>
          match engine.ListBlobs with
          | Except.error err =>
            some { err := some (Failure.ofError "get blob list" err), engine := engine,
                   black := m.gc.black, n := 0, trace := m.trace ++ [Call.ListBlobs] }
          | Except.ok blobs =>
            let s := sweep m.gc.black engine 0 (m.trace ++ [Call.ListBlobs]) blobs
            match s.err with
            | some f =>
              some { err := some f, engine := s.engine, black := m.gc.black, n := s.n,
                     trace := s.trace }
            | none =>
              match s.engine.GC with
              | Except.error err =>
                some { err := some (Failure.ofError "GC engine" err), engine := s.engine,
                       black := m.gc.black, n := s.n, trace := s.trace ++ [Call.GC] }
              | Except.ok engine1 =>
                some { err := none, engine := engine1, black := m.gc.black, n := s.n,
                       trace := s.trace ++ [Call.GC] }

/-! ## Reachability in the blob graph -/

/-- The descriptor that a reference name resolves to, if it resolves. -/
def Engine.resolve (engine : Engine) (name : String) : Option Descriptor :=
  match engine.GetReference name with
  | Except.error _ => none
  | Except.ok descriptor => some descriptor

/-- The root set of the store: the descriptors that its references resolve to,
in the order of `ListReferences`. -/
def Engine.roots (engine : Engine) : List Descriptor :=
  match engine.ListReferences with
  | Except.error _ => []
  | Except.ok names => names.filterMap engine.resolve

/-- The store without the blobs of the digests `gone`. -/
def Engine.without (engine : Engine) (gone : List String) : Engine :=
  { engine with blobs := engine.blobs.filter (fun b => b ∉ gone) }

/-- An edge of the blob graph: `c` is a child descriptor of the decoded blob
that `d` points at. -/
def Edge (engine : Engine) (d c : Descriptor) : Prop :=
  ∃ blob children, FromDescriptor engine d = Except.ok blob ∧
    childDescriptors blob.Data = Except.ok children ∧ c ∈ children

/-- Descriptors reachable from a list of root descriptors by a finite
descriptor path. -/
inductive Reachable (engine : Engine) (root : List Descriptor) : Descriptor → Prop where
  | root {d : Descriptor} : d ∈ root → Reachable engine root d
  | child {d c : Descriptor} : Reachable engine root d → Edge engine d c → Reachable engine root c

/-- Digests reachable from a list of root descriptors. -/
def ReachableDigest (engine : Engine) (root : List Descriptor) (digest : String) : Prop :=
  ∃ d, Reachable engine root d ∧ d.Digest = digest

/-- Descriptor identity is the digest (spec, section 3): two descriptors of
the same digest that are reachable from the roots decode to the same payload. -/
def Coherent (engine : Engine) (root : List Descriptor) : Prop :=
  ∀ d d2, Reachable engine root d → Reachable engine root d2 → d.Digest = d2.Digest →
    engine.decode d = engine.decode d2

/-- The descriptor `d` has been fetched and decoded, and all its children are
in the set `black`. -/
def Expanded (engine : Engine) (black : List String) (d : Descriptor) : Prop :=
  ∃ blob children, FromDescriptor engine d = Except.ok blob ∧
    childDescriptors blob.Data = Except.ok children ∧ ∀ c ∈ children, c.Digest ∈ black

/-- The white set: the digests of the inventory that are not black, in
inventory order. -/
def white (engine : Engine) (black : List String) : List String :=
  engine.blobs.filter (fun b => b ∉ black)

/-- The engine calls of a completed root gathering over `names`. -/
def rootTrace (names : List String) : List Call :=
  Call.ListReferences :: names.map Call.GetReference

/-- The digests fetched by the `FromDescriptor` calls of a trace, in order. -/
def fetched : List Call → List String
  | [] => []
  | Call.FromDescriptor d :: rest => d.Digest :: fetched rest
  | _ :: rest => fetched rest

/-- The digests passed to the `DeleteBlob` calls of a trace, in order. -/
def deleted : List Call → List String
  | [] => []
  | Call.DeleteBlob digest :: rest => digest :: deleted rest
  | _ :: rest => deleted rest

/-- A result `r` continues the state `gc` and trace `trace`: same engine, the
trace grown by fetches only, and the black set grown by exactly the fetched
digests, each of them new. -/
def Continues (gc : gcState) (trace : List Call) (r : Marked) : Prop :=
  r.gc.engine = gc.engine ∧
  ∃ ds : List Descriptor,
    r.trace = trace ++ ds.map Call.FromDescriptor ∧
    r.gc.black = (ds.map Descriptor.Digest).reverse ++ gc.black ∧
    (ds.map Descriptor.Digest).Nodup ∧ ∀ x ∈ ds.map Descriptor.Digest, x ∉ gc.black

/-! ## Specifications of the loops and of the run -/

/-- What one call of `mark` on `d` establishes: the state is continued, the
digest of `d` is black, and every black digest either was black before or is
the digest of a descriptor reachable from `d` which, if the call succeeded, has
been fetched and has all its children black. -/
def MarkSpec (engine : Engine) (gc : gcState) (trace : List Call) (d : Descriptor)
    (r : Marked) : Prop :=
  Continues gc trace r ∧ d.Digest ∈ r.gc.black ∧
  ∀ x ∈ r.gc.black, x ∈ gc.black ∨
    ∃ d2, d2.Digest = x ∧ Relation.ReflTransGen (Edge engine) d d2 ∧
      (r.err = none → Expanded engine r.gc.black d2)

/-- What the loop over the children establishes. -/
def ChildrenSpec (engine : Engine) (gc : gcState) (trace : List Call) (cs : List Descriptor)
    (r : Marked) : Prop :=
  Continues gc trace r ∧ (r.err = none → ∀ c ∈ cs, c.Digest ∈ r.gc.black) ∧
  ∀ x ∈ r.gc.black, x ∈ gc.black ∨
    ∃ c ∈ cs, ∃ d2, d2.Digest = x ∧ Relation.ReflTransGen (Edge engine) c d2 ∧
      (r.err = none → Expanded engine r.gc.black d2)

/-- How `GC` reports a failure `f0` of `mark`: an error is wrapped with the
index of some root, a panic is passed on. -/
def Reported (f0 f : Failure) : Prop :=
  match f0 with
  | Failure.error err0 => ∃ idx : Nat, f = Failure.ofError ("marking root " ++ toString idx) err0
  | Failure.panic p => f = Failure.panic p

/-- The number of stored digests that are not black: a bound on the depth of
the recursion of `mark`. -/
def unmarked (engine : Engine) (black : List String) : Nat :=
  (engine.blobs.toFinset \ black.toFinset).card

/-- The seven ways a run of `GC` can end, each with the run it produces. -/
inductive GCPath (fuel : Nat) (engine : Engine) : GCRun → Prop where
  | listReferences (err : Error) :
    engine.ListReferences = Except.error err →
    GCPath fuel engine
      { err := some (Failure.ofError "get roots" err), engine := engine, black := [], n := 0,
        trace := [Call.ListReferences] }
  | getReference (names pre : List String) (x : String) (post : List String) (err : Error) :
    engine.ListReferences = Except.ok names →
    names = pre ++ x :: post →
    (∀ y ∈ pre, ∃ d, engine.GetReference y = Except.ok d) →
    engine.GetReference x = Except.error err →
    GCPath fuel engine
      { err := some (Failure.ofError ("get root " ++ x) err), engine := engine, black := [],
        n := 0, trace := rootTrace (pre ++ [x]) }
  | mark (names : List String) (m : Marked) (f : Failure) :
    engine.ListReferences = Except.ok names →
    (∀ y ∈ names, ∃ d, engine.GetReference y = Except.ok d) →
    markRoots fuel { engine := engine, black := [] } (rootTrace names) 0 engine.roots = some m →
    m.err = some f →
    GCPath fuel engine
      { err := some f, engine := engine, black := m.gc.black, n := 0, trace := m.trace }
  | listBlobs (names : List String) (m : Marked) (err : Error) :
    engine.ListReferences = Except.ok names →
    (∀ y ∈ names, ∃ d, engine.GetReference y = Except.ok d) →
    markRoots fuel { engine := engine, black := [] } (rootTrace names) 0 engine.roots = some m →
    m.err = none →
    engine.listBlobsError = some err →
    GCPath fuel engine
      { err := some (Failure.ofError "get blob list" err), engine := engine,
        black := m.gc.black, n := 0, trace := m.trace ++ [Call.ListBlobs] }
  | deleteBlob (names : List String) (m : Marked) (pre : List String) (x : String)
      (post : List String) (err : Error) :
    engine.ListReferences = Except.ok names →
    (∀ y ∈ names, ∃ d, engine.GetReference y = Except.ok d) →
    markRoots fuel { engine := engine, black := [] } (rootTrace names) 0 engine.roots = some m →
    m.err = none →
    engine.listBlobsError = none →
    white engine m.gc.black = pre ++ x :: post →
    (∀ y ∈ pre, engine.deleteBlobError y = none) →
    engine.deleteBlobError x = some err →
    GCPath fuel engine
      { err := some (Failure.ofError ("remove unmarked blob " ++ x) err),
        engine := engine.without pre, black := m.gc.black, n := pre.length,
        trace := m.trace ++ [Call.ListBlobs] ++ (pre ++ [x]).map Call.DeleteBlob }
  | compaction (names : List String) (m : Marked) (err : Error) :
    engine.ListReferences = Except.ok names →
    (∀ y ∈ names, ∃ d, engine.GetReference y = Except.ok d) →
    markRoots fuel { engine := engine, black := [] } (rootTrace names) 0 engine.roots = some m →
    m.err = none →
    engine.listBlobsError = none →
    (∀ y ∈ white engine m.gc.black, engine.deleteBlobError y = none) →
    engine.gcError = some err →
    GCPath fuel engine
      { err := some (Failure.ofError "GC engine" err),
        engine := engine.without (white engine m.gc.black), black := m.gc.black,
        n := (white engine m.gc.black).length,
        trace := m.trace ++ [Call.ListBlobs] ++ (white engine m.gc.black).map Call.DeleteBlob
          ++ [Call.GC] }
  | done (names : List String) (m : Marked) :
    engine.ListReferences = Except.ok names →
    (∀ y ∈ names, ∃ d, engine.GetReference y = Except.ok d) →
    markRoots fuel { engine := engine, black := [] } (rootTrace names) 0 engine.roots = some m →
    m.err = none →
    engine.listBlobsError = none →
    (∀ y ∈ white engine m.gc.black, engine.deleteBlobError y = none) →
    engine.gcError = none →
    GCPath fuel engine
      { err := none,
        engine := engine.without (white engine m.gc.black), black := m.gc.black,
        n := (white engine m.gc.black).length,
        trace := m.trace ++ [Call.ListBlobs] ++ (white engine m.gc.black).map Call.DeleteBlob
          ++ [Call.GC] }

/-- The error of resolving a reference name, if it does not resolve. -/
def Engine.resolveError (engine : Engine) (name : String) : Option Error :=
  match engine.GetReference name with
  | Except.error err => some err
  | Except.ok _ => none

/-- The failure `f` arises at the descriptor `d`: fetching `d` returns the
error, or the payload fetched through `d` makes `childDescriptors` panic. -/
def FailsAt (engine : Engine) (d : Descriptor) (f : Failure) : Prop :=
  match f with
  | Failure.error err => FromDescriptor engine d = Except.error err
  | Failure.panic p =>
    ∃ blob, FromDescriptor engine d = Except.ok blob ∧ childDescriptors blob.Data = Except.error p

/-- Every payload that the engine decodes can be walked: `childDescriptors`
does not panic on it (it holds no fixed-size array where the walker looks). -/
def Walkable (engine : Engine) : Prop :=
  ∀ d blob, FromDescriptor engine d = Except.ok blob →
    ∃ children, childDescriptors blob.Data = Except.ok children

/-! ## Example stores -/

/-- Descriptor of manifest `A`. -/
def descA : Descriptor := { MediaType := "manifest", Digest := "A", Size := 3 }

/-- Descriptor of config `C`. -/
def descC : Descriptor := { MediaType := "config", Digest := "C", Size := 1 }

/-- Descriptor of layer `L1`. -/
def descL1 : Descriptor := { MediaType := "layer", Digest := "L1", Size := 2 }

/-- Manifest `A`: a pointer to a schema struct holding a foreign struct, the
config descriptor, the slice of layers and an annotation map. -/
def manifestA : Value :=
  Value.ptr (Value.struct descriptorPkgPath
    [Value.struct "github.com/opencontainers/image-spec/specs-go" [Value.other],
     Value.descriptor descC, Value.slice [Value.descriptor descL1], Value.map []])

/-- Store of the spec scenario: blob `A` (tag `latest`) references config `C`
and layer `L1`; blob `O` is an orphan. -/
def scenario : Engine where
  references := Except.ok ["latest"]
  reference := fun name =>
    if name = "latest" then Except.ok descA else Except.error (Error.base "not found")
  blobs := ["A", "C", "L1", "O"]
  decode := fun d =>
    if d.Digest = "A" then Except.ok manifestA
    else if d.Digest = "C" then Except.ok (Value.ptr (Value.struct descriptorPkgPath [Value.other]))
    else Except.ok Value.other
  listBlobsError := none
  deleteBlobError := fun _ => none
  gcError := none

/-- Store of the spec scenario in which layer `L1` is corrupt: it is present
but fails to decode. -/
def corruptLayer : Engine :=
  { scenario with
    decode := fun d =>
      if d.Digest = "L1" then Except.error (Error.base "corrupt blob")
      else scenario.decode d }

/-- An illegally cyclic store: blob `A` references blob `B`, which references
blob `A`. -/
def cyclic : Engine where
  references := Except.ok ["loop"]
  reference := fun _ => Except.ok { MediaType := "manifest", Digest := "A", Size := 1 }
  blobs := ["A", "B"]
  decode := fun d =>
    if d.Digest = "A" then
      Except.ok (Value.slice [Value.descriptor { MediaType := "manifest", Digest := "B", Size := 1 }])
    else
      Except.ok (Value.slice [Value.descriptor { MediaType := "manifest", Digest := "A", Size := 1 }])
  listBlobsError := none
  deleteBlobError := fun _ => none
  gcError := none

/-- A store with a diamond: the tags `v1` and `v2` point at the manifests `M1`
and `M2`, which both reference the layer `D`. -/
def diamond : Engine where
  references := Except.ok ["v1", "v2"]
  reference := fun name =>
    if name = "v1" then Except.ok { MediaType := "manifest", Digest := "M1", Size := 1 }
    else Except.ok { MediaType := "manifest", Digest := "M2", Size := 1 }
  blobs := ["D", "M1", "M2"]
  decode := fun d =>
    if d.Digest = "D" then Except.ok Value.other
    else
      Except.ok (Value.ptr (Value.struct descriptorPkgPath
        [Value.slice [Value.descriptor { MediaType := "layer", Digest := "D", Size := 7 }]]))
  listBlobsError := none
  deleteBlobError := fun _ => none
  gcError := none

/-- A store whose second reference does not resolve. -/
def dangling : Engine :=
  { scenario with
    references := Except.ok ["latest", "broken", "other"]
    reference := fun name =>
      if name = "broken" then Except.error (Error.base "not found") else Except.ok descA }

/-- A store with three orphans `O1`, `O2`, `O3` in which the deletion of `O2`
fails. -/
def stuck : Engine :=
  { scenario with
    blobs := ["O1", "A", "O2", "C", "L1", "O3"]
    deleteBlobError := fun digest =>
      if digest = "O2" then some (Error.base "permission denied") else none }

/-! ## The graph walker as the spec words it -/

mutual
/-- The function `edges` of the spec (section 4.1), following its traversal
policy: a descriptor is itself one edge; an empty pointer contributes none and
a non-empty one the edges of its target; an ordered collection, slice or array,
contributes the edges of its elements in order; a composite record of the
schema family contributes the edges of its fields in declaration order; any
other node contributes none. -/
def edges : Value → List Descriptor
  | Value.invalid => []
  | Value.descriptor d => [d]
  | Value.nilptr => []
  | Value.ptr elem => edges elem
  | Value.array elems => edgesEach elems
  | Value.slice elems => edgesEach elems
  | Value.struct pkgPath fields => if pkgPath = descriptorPkgPath then edgesEach fields else []
  | Value.map _ => []
  | Value.other => []
/-- The concatenation of the edges of the nodes of a list, in order. -/
def edgesEach : List Value → List Descriptor
  | [] => []
  | v :: vs => edges v ++ edgesEach vs
end

mutual
/-- The walk of `edges` comes upon a fixed-size array: below pointers, slices
and the fields of composite records of the schema family only. -/
def meetsArray : Value → Bool
  | Value.invalid => false
  | Value.descriptor _ => false
  | Value.nilptr => false
  | Value.ptr elem => meetsArray elem
  | Value.array _ => true
  | Value.slice elems => meetsArrayAny elems
  | Value.struct pkgPath fields =>
    if pkgPath = descriptorPkgPath then meetsArrayAny fields else false
  | Value.map _ => false
  | Value.other => false
/-- The walk comes upon a fixed-size array in one of the nodes of a list. -/
def meetsArrayAny : List Value → Bool
  | [] => false
  | v :: vs => meetsArray v || meetsArrayAny vs
end

/-- An image manifest as `FromDescriptor` decodes it: a pointer to a record of
the schema family with the version record (declared in another package), the
config descriptor, the slice of layer descriptors and the annotation map. -/
def manifestValue (config : Descriptor) (layers : List Descriptor)
    (annotations : List (Value × Value)) : Value :=
  Value.ptr (Value.struct descriptorPkgPath
    [Value.struct "github.com/opencontainers/image-spec/specs-go" [Value.other],
     Value.descriptor config, Value.slice (layers.map Value.descriptor),
     Value.map annotations])

/-! ## `unpack.go` -/

/-- Go's `strings.HasPrefix(s, p)` on the characters of the strings. -/
def startsWith : List Char → List Char → Bool
  | _, [] => true
  | [], _ :: _ => false
  | c :: cs, p :: ps => c == p && startsWith cs ps

/-- Go's `strings.Replace(s, old, new, 1)` on the characters of the strings:
the first occurrence of `old` in `s`, if there is one, is replaced by `new`. -/
def replaceOnce (old new : List Char) : List Char → List Char
  | [] => if old = [] then new else []
  | c :: cs =>
    if startsWith (c :: cs) old then new ++ (c :: cs).drop old.length
    else c :: replaceOnce old new cs

/-- The variable `mtreeName` of `unpack`:
`strings.Replace(meta.From.Digest, "sha256:", "sha256_", 1)`. -/
def mtreeName (digest : String) : String :=
  String.mk (replaceOnce "sha256:".toList "sha256_".toList digest.toList)

/-- The elements of a path: the stretches of characters between its
separators `/`, empty ones included. -/
def splitPath : List Char → List (List Char)
  | [] => [[]]
  | c :: cs =>
    if c = '/' then [] :: splitPath cs
    else
      match splitPath cs with
      | [] => [[c]]
      | e :: es => (c :: e) :: es

/-- One step of Go's `filepath.Clean` on the stack of the elements kept so far,
latest first: an empty element and `.` are dropped; `..` removes the latest
element when that is not itself `..`, is dropped at the top of a rooted path
and is kept otherwise; any other element is kept. -/
def cleanStep (rooted : Bool) (stack : List (List Char)) (e : List Char) : List (List Char) :=
  if e = [] ∨ e = ['.'] then stack
  else if e = ['.', '.'] then
    match stack with
    | [] => if rooted then [] else [['.', '.']]
    | top :: rest =>
      if top ≠ ['.', '.'] then rest
      else if rooted then stack else ['.', '.'] :: stack
  else e :: stack

/-- A cleaned path: whether it starts at the root, and its elements in order. -/
structure CleanPath where
  rooted : Bool
  elems : List (List Char)
  deriving DecidableEq, Repr

/-- Go's `filepath.Clean` on a Unix path, by elements. -/
def cleanPath (path : List Char) : CleanPath :=
  { rooted := path.head? = some '/',
    elems := ((splitPath path).foldl (cleanStep (path.head? = some '/')) []).reverse }

/-- The string of a cleaned path: the elements separated by `/`, after a
leading `/` when the path is rooted, and `.` when this is empty. -/
def renderPath (p : CleanPath) : List Char :=
  let out := if p.rooted then '/' :: List.intercalate ['/'] p.elems
    else List.intercalate ['/'] p.elems
  if out = [] then ['.'] else out

/-- Go's `filepath.Clean(path)` on Unix. -/
def Clean (path : String) : String :=
  String.mk (renderPath (cleanPath path.toList))

/-- Go's `filepath.Join(a, b)` on Unix: empty leading arguments are ignored, the
others are joined with `/` and the result is cleaned. -/
def Join (a b : String) : String :=
  if a ≠ "" then Clean (a ++ "/" ++ b)
  else if b ≠ "" then Clean b
  else ""

/-- The variable `mtreePath` of `unpack`:
`filepath.Join(bundlePath, mtreeName+".mtree")`. -/
def mtreePath (bundlePath digest : String) : String :=
  Join bundlePath (mtreeName digest ++ ".mtree")

/-- The path of the entry named `file` placed directly in the directory `dir`:
the elements of `dir` followed by the one element `file`. -/
def CleanPath.entry (dir : CleanPath) (file : List Char) : CleanPath :=
  { rooted := dir.rooted, elems := dir.elems ++ [file] }

/-- The constant `ispec.MediaTypeImageManifest` of the image specification. -/
def MediaTypeImageManifest : String := "application/vnd.oci.image.manifest.v1+json"

/-- The fields of `ispec.Manifest` that hold descriptors. -/
structure Manifest where
  Config : Descriptor
  Layers : List Descriptor

/-- How a Go function with results `(value, error)` ends: it returns both, or
it panics. -/
inductive Returned (α : Type) where
  | result (value : α) (err : Option Error)
  | panic (msg : String)

/-- A finished call of `getConfig`: how it ended and the engine calls made. -/
structure ConfigRun (Image : Type) where
  outcome : Returned Image
  trace : List Call

/-- The run-time panic of a failed type assertion `x.(*T)` or of the
dereference of a nil pointer. -/
def assertionPanic : String := "interface conversion or nil pointer dereference"

/-- The function `getConfig` of `unpack.go`.  The type `ispec.Image` with its
zero value `ispec.Image{}` and the two type assertions followed by a
dereference, `manBlob.Data.(*ispec.Manifest)` and `*configBlob.Data.(*ispec.Image)`,
are parameters; an assertion answers `none` when it panics. -/
def getConfig {Image : Type} (zero : Image) (asManifest : Value → Option Manifest)
    (asImage : Value → Option Image) (engine : Engine) (manDescriptor : Descriptor) :
    ConfigRun Image :=
  if manDescriptor.MediaType ≠ MediaTypeImageManifest then
    { outcome := Returned.result zero (some (Error.wrap "invalid --image tag" (Error.base
        ("descriptor does not point to ispec.MediaTypeImageManifest: not implemented: "
          ++ manDescriptor.MediaType)))),
      trace := [] }
  else
    match FromDescriptor engine manDescriptor with
    | Except.error err =>
      { outcome := Returned.result zero (some err),
        trace := [Call.FromDescriptor manDescriptor] }
    | Except.ok manBlob =>
      match asManifest manBlob.Data with
      | none =>
        { outcome := Returned.panic assertionPanic,
          trace := [Call.FromDescriptor manDescriptor] }
      | some manifest =>
        match FromDescriptor engine manifest.Config with
        | Except.error err =>
          { outcome := Returned.result zero (some err),
            trace := [Call.FromDescriptor manDescriptor, Call.FromDescriptor manifest.Config] }
        | Except.ok configBlob =>
          match asImage configBlob.Data with
          | none =>
            { outcome := Returned.panic assertionPanic,
              trace := [Call.FromDescriptor manDescriptor,
                Call.FromDescriptor manifest.Config] }
          | some image =>
            { outcome := Returned.result image none,
              trace := [Call.FromDescriptor manDescriptor,
                Call.FromDescriptor manifest.Config] }

/-- Descriptor of an image manifest `M`, with the image-manifest media type. -/
def descM : Descriptor := { MediaType := MediaTypeImageManifest, Digest := "M", Size := 9 }

/-- An image store: the manifest `M` has the config `C` and the layer `L1`. -/
def imageStore : Engine :=
  { scenario with
    blobs := ["M", "C", "L1"]
    decode := fun d =>
      if d.Digest = "M" then Except.ok (manifestValue descC [descL1] [])
      else if d.Digest = "C" then
        Except.ok (Value.ptr (Value.struct descriptorPkgPath [Value.other]))
      else Except.ok Value.other }

/-- An instance of the assertion `.(*ispec.Manifest)`: it holds of the values
built by `manifestValue`. -/
def asManifestValue : Value → Option Manifest
  | Value.ptr (Value.struct _ [_, Value.descriptor config, Value.slice layers, Value.map _]) =>
    some { Config := config, Layers := edgesEach layers }
  | _ => none

/-- An instance of the assertion `.(*ispec.Image)`, with the image config
reduced to the number of its fields: it holds of pointers to a record of the
schema family. -/
def asImageValue : Value → Option Nat
  | Value.ptr (Value.struct _ fields) => some fields.length
  | _ => none

/-- Store of the spec scenario in which the compaction hook fails. -/
def hookFails : Engine :=
  { scenario with gcError := some (Error.base "repack failed") }

/-- The failure that `GC` returns when `mark` fails on the root of index
`idx`: an error is wrapped with `errors.Wrapf(err, "marking root %d", idx)`, a
panic unwinds as it is. -/
def reportRoot (idx : Nat) : Failure → Failure
  | Failure.error err => Failure.ofError ("marking root " ++ toString idx) err
  | Failure.panic p => Failure.panic p

/-- A store with three tags, in which the manifest `M1` of the second and the
manifest `M2` of the third both reference blobs that fail to decode. -/
def twoCorrupt : Engine where
  references := Except.ok ["good", "bad", "worse"]
  reference := fun name =>
    if name = "good" then Except.ok { MediaType := "layer", Digest := "D", Size := 7 }
    else if name = "bad" then Except.ok { MediaType := "manifest", Digest := "M1", Size := 1 }
    else Except.ok { MediaType := "manifest", Digest := "M2", Size := 1 }
  blobs := ["D", "M1", "M2", "X1", "X2"]
  decode := fun d =>
    if d.Digest = "D" then Except.ok Value.other
    else if d.Digest = "M1" then
      Except.ok (Value.slice [Value.descriptor { MediaType := "layer", Digest := "X1", Size := 1 }])
    else if d.Digest = "M2" then
      Except.ok (Value.slice [Value.descriptor { MediaType := "layer", Digest := "X2", Size := 1 }])
    else if d.Digest = "X1" then Except.error (Error.base "corrupt X1")
    else Except.error (Error.base "corrupt X2")
  listBlobsError := none
  deleteBlobError := fun _ => none
  gcError := none

/-! ## Lemmas on `mark` -/

theorem Continues.refl (gc : gcState) (trace : List Call) (err : Option Failure) :
    Continues gc trace { gc := gc, trace := trace, err := err } :=
  ⟨rfl, [], by simp, by simp, by simp, by simp⟩

theorem Continues.trans {gc : gcState} {trace : List Call} {r1 r2 : Marked}
    (h1 : Continues gc trace r1) (h2 : Continues r1.gc r1.trace r2) :
    Continues gc trace r2 := by
  obtain ⟨e1, ds1, t1, b1, n1, f1⟩ := h1
  obtain ⟨e2, ds2, t2, b2, n2, f2⟩ := h2
  refine ⟨e2.trans e1, ds1 ++ ds2, ?_, ?_, ?_, ?_⟩
  · rw [t2, t1]; simp
  · rw [b2, b1]; simp
  · rw [List.map_append]
    refine List.Nodup.append n1 n2 ?_
    intro x hx1 hx2
    apply f2 x hx2
    rw [b1]
    exact List.mem_append_left _ (List.mem_reverse.mpr hx1)
  · intro x hx
    rw [List.map_append] at hx
    rcases List.mem_append.mp hx with h | h
    · exact f1 x h
    · intro hb
      apply f2 x h
      rw [b1]
      exact List.mem_append_right _ hb

theorem Continues.reerr {gc : gcState} {trace : List Call} {r : Marked}
    (h : Continues gc trace r) (err : Option Failure) :
    Continues gc trace { gc := r.gc, trace := r.trace, err := err } := h

theorem forEachChild_continues (step : gcState → List Call → Descriptor → Option Marked)
    (hstep : ∀ gc trace d r, step gc trace d = some r → Continues gc trace r) :
    ∀ (cs : List Descriptor) (gc : gcState) (trace : List Call) (r : Marked),
      forEachChild step gc trace cs = some r → Continues gc trace r := by
  intro cs
  induction cs with
  | nil =>
    intro gc trace r h
    simp only [forEachChild, Option.some.injEq] at h
    subst h
    exact Continues.refl gc trace none
  | cons c rest ih =>
    intro gc trace r h
    simp only [forEachChild] at h
    cases hs : step gc trace c with
    | none => simp [hs] at h
    | some r1 =>
      have h1 := hstep gc trace c r1 hs
      simp only [hs] at h
      cases he : r1.err with
      | some f =>
        simp only [he, Option.some.injEq] at h
        subst h
        exact h1.reerr (some f)
      | none =>
        simp only [he] at h
        exact h1.trans (ih r1.gc r1.trace r h)

theorem mark_continues : ∀ (fuel : Nat) (gc : gcState) (trace : List Call) (d : Descriptor)
    (r : Marked), mark fuel gc trace d = some r → Continues gc trace r := by
  intro fuel
  induction fuel with
  | zero => intro gc trace d r h; simp [mark] at h
  | succ fuel ih =>
    intro gc trace d r h
    simp only [mark] at h
    split at h
    · simp only [Option.some.injEq] at h
      subst h
      exact Continues.refl gc trace none
    · rename_i hnot
      have hfirst : ∀ err, Continues gc trace
          { gc := { gc with black := d.Digest :: gc.black },
            trace := trace ++ [Call.FromDescriptor d], err := err } := by
        intro err
        refine ⟨rfl, [d], by simp, by simp, by simp, ?_⟩
        intro x hx
        simp only [List.map_cons, List.map_nil, List.mem_singleton] at hx
        rw [hx]
        exact hnot
      split at h
      · simp only [Option.some.injEq] at h
        subst h
        exact hfirst _
      · split at h
        · simp only [Option.some.injEq] at h
          subst h
          exact hfirst _
        · exact (hfirst none).trans (forEachChild_continues (mark fuel) ih _ _ _ _ h)

theorem Continues.subset {gc : gcState} {trace : List Call} {r : Marked}
    (h : Continues gc trace r) : ∀ x, x ∈ gc.black → x ∈ r.gc.black := by
  obtain ⟨_, ds, _, b, _⟩ := h
  intro x hx
  rw [b]
  exact List.mem_append_right _ hx

theorem Continues.nodup {gc : gcState} {trace : List Call} {r : Marked}
    (h : Continues gc trace r) (hn : gc.black.Nodup) : r.gc.black.Nodup := by
  obtain ⟨_, ds, _, b, n, f⟩ := h
  rw [b]
  refine List.Nodup.append (List.nodup_reverse.mpr n) hn ?_
  intro x hx1 hx2
  exact f x (List.mem_reverse.mp hx1) hx2

theorem Expanded.mono {engine : Engine} {b1 b2 : List String} {d : Descriptor}
    (h : Expanded engine b1 d) (hsub : ∀ x, x ∈ b1 → x ∈ b2) : Expanded engine b2 d := by
  obtain ⟨blob, children, hf, hc, hall⟩ := h
  exact ⟨blob, children, hf, hc, fun c hcm => hsub _ (hall c hcm)⟩

theorem forEachChild_spec (engine : Engine)
    (step : gcState → List Call → Descriptor → Option Marked)
    (hstep : ∀ gc trace d r, gc.engine = engine → step gc trace d = some r →
      MarkSpec engine gc trace d r) :
    ∀ (cs : List Descriptor) (gc : gcState) (trace : List Call) (r : Marked),
      gc.engine = engine → forEachChild step gc trace cs = some r →
      ChildrenSpec engine gc trace cs r := by
  intro cs
  induction cs with
  | nil =>
    intro gc trace r _ h
    simp only [forEachChild, Option.some.injEq] at h
    subst h
    exact ⟨Continues.refl gc trace none, fun _ c hc => by simp at hc, fun x hx => Or.inl hx⟩
  | cons c rest ih =>
    intro gc trace r hengine h
    simp only [forEachChild] at h
    cases hs : step gc trace c with
    | none => simp [hs] at h
    | some r1 =>
      obtain ⟨hc1, hself, hnew⟩ := hstep gc trace c r1 hengine hs
      simp only [hs] at h
      cases he : r1.err with
      | some f =>
        simp only [he, Option.some.injEq] at h
        subst h
        refine ⟨hc1.reerr (some f), fun hn => by simp at hn, fun x hx => ?_⟩
        rcases hnew x hx with hold | ⟨d2, hd, hr, _⟩
        · exact Or.inl hold
        · exact Or.inr ⟨c, List.mem_cons_self _ _, d2, hd, hr, fun hn => by simp at hn⟩
      | none =>
        simp only [he] at h
        obtain ⟨hc2, hall, hnew2⟩ := ih r1.gc r1.trace r (hc1.1.trans hengine) h
        refine ⟨hc1.trans hc2, fun hn c2 hc2m => ?_, fun x hx => ?_⟩
        · rcases List.mem_cons.mp hc2m with rfl | hin
          · exact hc2.subset _ hself
          · exact hall hn c2 hin
        · rcases hnew2 x hx with hold | ⟨c2, hc2m, d2, hd, hr, hex⟩
          · rcases hnew x hold with hold1 | ⟨d2, hd, hr, hex⟩
            · exact Or.inl hold1
            · exact Or.inr ⟨c, List.mem_cons_self _ _, d2, hd, hr,
                fun _ => (hex he).mono hc2.subset⟩
          · exact Or.inr ⟨c2, List.mem_cons_of_mem _ hc2m, d2, hd, hr, hex⟩

theorem mark_spec (engine : Engine) : ∀ (fuel : Nat) (gc : gcState) (trace : List Call)
    (d : Descriptor) (r : Marked), gc.engine = engine → mark fuel gc trace d = some r →
    MarkSpec engine gc trace d r := by
  intro fuel
  induction fuel with
  | zero => intro gc trace d r _ h; simp [mark] at h
  | succ fuel ih =>
    intro gc trace d r hengine h
    have hcont := mark_continues (fuel + 1) gc trace d r h
    simp only [mark] at h
    split at h
    · rename_i hin
      simp only [Option.some.injEq] at h
      subst h
      exact ⟨hcont, hin, fun x hx => Or.inl hx⟩
    · split at h
      · simp only [Option.some.injEq] at h
        subst h
        refine ⟨hcont, List.mem_cons_self _ _, fun x hx => ?_⟩
        rcases List.mem_cons.mp hx with rfl | hold
        · exact Or.inr ⟨d, rfl, Relation.ReflTransGen.refl, fun hn => by simp at hn⟩
        · exact Or.inl hold
      · rename_i blob hblob
        split at h
        · simp only [Option.some.injEq] at h
          subst h
          refine ⟨hcont, List.mem_cons_self _ _, fun x hx => ?_⟩
          rcases List.mem_cons.mp hx with rfl | hold
          · exact Or.inr ⟨d, rfl, Relation.ReflTransGen.refl, fun hn => by simp at hn⟩
          · exact Or.inl hold
        · rename_i children hchildren
          obtain ⟨hc2, hall, hnew⟩ := forEachChild_spec engine (mark fuel) ih children
            { gc with black := d.Digest :: gc.black } (trace ++ [Call.FromDescriptor d]) r
            hengine h
          rw [hengine] at hblob
          refine ⟨hcont, hc2.subset _ (List.mem_cons_self _ _), fun x hx => ?_⟩
          rcases hnew x hx with hold | ⟨c, hcm, d2, hd, hr, hex⟩
          · rcases List.mem_cons.mp hold with rfl | hold1
            · exact Or.inr ⟨d, rfl, Relation.ReflTransGen.refl,
                fun hn => ⟨blob, children, hblob, hchildren, hall hn⟩⟩
            · exact Or.inl hold1
          · exact Or.inr ⟨d2, hd,
              Relation.ReflTransGen.head ⟨blob, children, hblob, hchildren, hcm⟩ hr, hex⟩

theorem markRoots_forEachChild (fuel : Nat) :
    ∀ (root : List Descriptor) (gc : gcState) (trace : List Call) (idx : Nat) (r : Marked),
      markRoots fuel gc trace idx root = some r →
      ∃ r0, forEachChild (mark fuel) gc trace root = some r0 ∧ r.gc = r0.gc ∧
        r.trace = r0.trace ∧ (r.err = none ↔ r0.err = none) ∧
        ∀ f, r.err = some f → ∃ f0, r0.err = some f0 ∧ Reported f0 f := by
  intro root
  induction root with
  | nil =>
    intro gc trace idx r h
    simp only [markRoots, Option.some.injEq] at h
    subst h
    exact ⟨_, rfl, rfl, rfl, Iff.rfl, fun f hf => by simp at hf⟩
  | cons d rest ih =>
    intro gc trace idx r h
    simp only [markRoots] at h
    cases hs : mark fuel gc trace d with
    | none => simp [hs] at h
    | some r1 =>
      simp only [hs] at h
      cases he : r1.err with
      | some f =>
        cases f with
        | error err =>
          simp only [he, Option.some.injEq] at h
          subst h
          refine ⟨{ gc := r1.gc, trace := r1.trace, err := some (Failure.error err) },
            by simp [forEachChild, hs, he], rfl, rfl, by simp, ?_⟩
          intro f hf
          simp only [Option.some.injEq] at hf
          exact ⟨Failure.error err, rfl, idx, hf.symm⟩
        | panic p =>
          simp only [he, Option.some.injEq] at h
          subst h
          refine ⟨{ gc := r1.gc, trace := r1.trace, err := some (Failure.panic p) },
            by simp [forEachChild, hs, he], rfl, rfl, by simp, ?_⟩
          intro f hf
          simp only [Option.some.injEq] at hf
          exact ⟨Failure.panic p, rfl, hf.symm⟩
      | none =>
        simp only [he] at h
        obtain ⟨r0, h0, hg, ht, herr, hrep⟩ := ih r1.gc r1.trace (idx + 1) r h
        exact ⟨r0, by simp [forEachChild, hs, he, h0], hg, ht, herr, hrep⟩

theorem markRoots_spec (engine : Engine) (fuel : Nat) (root : List Descriptor) (gc : gcState)
    (trace : List Call) (idx : Nat) (r : Marked) (hengine : gc.engine = engine)
    (h : markRoots fuel gc trace idx root = some r) : ChildrenSpec engine gc trace root r := by
  obtain ⟨r0, h0, hg, ht, herr, _⟩ := markRoots_forEachChild fuel root gc trace idx r h
  obtain ⟨hc, hall, hnew⟩ :=
    forEachChild_spec engine (mark fuel) (mark_spec engine fuel) root gc trace r0 hengine h0
  refine ⟨?_, ?_, ?_⟩
  · obtain ⟨he, ds, t, b, n⟩ := hc
    exact ⟨by rw [hg]; exact he, ds, by rw [ht]; exact t, by rw [hg]; exact b, n⟩
  · intro hn
    rw [hg]
    exact hall (herr.mp hn)
  · intro x hx
    rw [hg] at hx
    rcases hnew x hx with hold | ⟨c, hcm, d2, hd, hr, hex⟩
    · exact Or.inl hold
    · exact Or.inr ⟨c, hcm, d2, hd, hr, fun hn => by rw [hg]; exact hex (herr.mp hn)⟩

/-! ## Termination of `mark` -/

theorem unmarked_le_length (engine : Engine) (black : List String) :
    unmarked engine black ≤ engine.blobs.length := by
  unfold unmarked
  calc (engine.blobs.toFinset \ black.toFinset).card
      ≤ engine.blobs.toFinset.card := Finset.card_le_card Finset.sdiff_subset
    _ ≤ engine.blobs.length := List.toFinset_card_le _

theorem unmarked_mono (engine : Engine) {b1 b2 : List String} (h : ∀ x, x ∈ b1 → x ∈ b2) :
    unmarked engine b2 ≤ unmarked engine b1 := by
  unfold unmarked
  apply Finset.card_le_card
  intro x hx
  simp only [Finset.mem_sdiff, List.mem_toFinset] at hx ⊢
  exact ⟨hx.1, fun hb => hx.2 (h x hb)⟩

theorem unmarked_cons_lt (engine : Engine) (black : List String) (x : String)
    (hx : x ∈ engine.blobs) (hnot : x ∉ black) :
    unmarked engine (x :: black) < unmarked engine black := by
  unfold unmarked
  apply Finset.card_lt_card
  refine ⟨?_, ?_⟩
  · intro y hy
    simp only [Finset.mem_sdiff, List.mem_toFinset, List.mem_cons, not_or] at hy ⊢
    exact ⟨hy.1, hy.2.2⟩
  · intro hsub
    have hmem : x ∈ engine.blobs.toFinset \ black.toFinset := by
      simp only [Finset.mem_sdiff, List.mem_toFinset]
      exact ⟨hx, hnot⟩
    have := hsub hmem
    simp at this

theorem FromDescriptor_ok_mem {engine : Engine} {d : Descriptor} {blob : Blob}
    (h : FromDescriptor engine d = Except.ok blob) : d.Digest ∈ engine.blobs := by
  unfold FromDescriptor at h
  by_contra hnot
  simp [hnot] at h

theorem forEachChild_returns (engine : Engine) (fuel : Nat)
    (step : gcState → List Call → Descriptor → Option Marked)
    (hcont : ∀ gc trace d r, step gc trace d = some r → Continues gc trace r)
    (hstep : ∀ gc trace d, gc.engine = engine → unmarked engine gc.black < fuel →
      ∃ r, step gc trace d = some r) :
    ∀ (cs : List Descriptor) (gc : gcState) (trace : List Call),
      gc.engine = engine → unmarked engine gc.black < fuel →
      ∃ r, forEachChild step gc trace cs = some r := by
  intro cs
  induction cs with
  | nil => intro gc trace _ _; exact ⟨_, rfl⟩
  | cons c rest ih =>
    intro gc trace hengine hlt
    obtain ⟨r1, hs⟩ := hstep gc trace c hengine hlt
    have hc1 := hcont gc trace c r1 hs
    cases he : r1.err with
    | some f => simp [forEachChild, hs, he]
    | none =>
      obtain ⟨r, hr⟩ := ih r1.gc r1.trace (hc1.1.trans hengine)
        (lt_of_le_of_lt (unmarked_mono engine hc1.subset) hlt)
      exact ⟨r, by simp [forEachChild, hs, he, hr]⟩

theorem mark_returns (engine : Engine) : ∀ (fuel : Nat) (gc : gcState) (trace : List Call)
    (d : Descriptor), gc.engine = engine → unmarked engine gc.black < fuel →
    ∃ r, mark fuel gc trace d = some r := by
  intro fuel
  induction fuel with
  | zero => intro gc trace d _ h; simp at h
  | succ fuel ih =>
    intro gc trace d hengine hlt
    simp only [mark]
    split
    · exact ⟨_, rfl⟩
    · rename_i hnot
      split
      · exact ⟨_, rfl⟩
      · rename_i blob hblob
        split
        · exact ⟨_, rfl⟩
        · rw [hengine] at hblob
          have hdec := unmarked_cons_lt engine gc.black d.Digest (FromDescriptor_ok_mem hblob) hnot
          exact forEachChild_returns engine fuel (mark fuel) (mark_continues fuel) ih _
            { gc with black := d.Digest :: gc.black } _ hengine
            (show unmarked engine (d.Digest :: gc.black) < fuel by omega)

theorem markRoots_returns (engine : Engine) (fuel : Nat) :
    ∀ (root : List Descriptor) (gc : gcState) (trace : List Call) (idx : Nat),
      gc.engine = engine → unmarked engine gc.black < fuel →
      ∃ r, markRoots fuel gc trace idx root = some r := by
  intro root
  induction root with
  | nil => intro gc trace idx _ _; exact ⟨_, rfl⟩
  | cons d rest ih =>
    intro gc trace idx hengine hlt
    obtain ⟨r1, hs⟩ := mark_returns engine fuel gc trace d hengine hlt
    have hc1 := mark_continues fuel gc trace d r1 hs
    cases he : r1.err with
    | some f =>
      cases f with
      | error err => simp [markRoots, hs, he]
      | panic p => simp [markRoots, hs, he]
    | none =>
      obtain ⟨r, hr⟩ := ih r1.gc r1.trace (idx + 1) (hc1.1.trans hengine)
        (lt_of_le_of_lt (unmarked_mono engine hc1.subset) hlt)
      exact ⟨r, by simp [markRoots, hs, he, hr]⟩

/-! ## Lemmas on the loops of `GC` -/

theorem Engine.without_nil (engine : Engine) : engine.without [] = engine := by
  simp [Engine.without]

theorem Engine.without_without (engine : Engine) (a b : List String) :
    (engine.without a).without b = engine.without (a ++ b) := by
  simp only [Engine.without, List.filter_filter]
  congr 1
  apply List.filter_congr
  intro x _
  simp only [List.mem_append, not_or, Bool.decide_and]
  exact Bool.and_comm _ _

theorem Engine.DeleteBlob_ok (engine : Engine) (digest : String)
    (h : engine.deleteBlobError digest = none) :
    engine.DeleteBlob digest = Except.ok (engine.without [digest]) := by
  simp [Engine.DeleteBlob, h, Engine.without]

theorem Engine.DeleteBlob_error (engine : Engine) (digest : String) (err : Error)
    (h : engine.deleteBlobError digest = some err) :
    engine.DeleteBlob digest = Except.error err := by
  simp [Engine.DeleteBlob, h]

/-- A list is either accepted throughout by `f`, or splits at the first element
on which `f` reports an error. -/
theorem first_error {α β : Type} (f : α → Option β) :
    ∀ l : List α, (∀ x ∈ l, f x = none) ∨
      ∃ pre x post err, l = pre ++ x :: post ∧ (∀ y ∈ pre, f y = none) ∧ f x = some err := by
  intro l
  induction l with
  | nil => exact Or.inl (fun x hx => by simp at hx)
  | cons a rest ih =>
    cases ha : f a with
    | some err => exact Or.inr ⟨[], a, rest, err, rfl, fun y hy => by simp at hy, ha⟩
    | none =>
      rcases ih with hall | ⟨pre, x, post, err, hl, hpre, hx⟩
      · left
        intro x hx
        rcases List.mem_cons.mp hx with rfl | hin
        · exact ha
        · exact hall x hin
      · right
        refine ⟨a :: pre, x, post, err, by rw [hl]; rfl, fun y hy => ?_, hx⟩
        rcases List.mem_cons.mp hy with rfl | hin
        · exact ha
        · exact hpre y hin

theorem sweep_filter (black : List String) :
    ∀ (blobs : List String) (engine : Engine) (n : Nat) (trace : List Call),
      sweep black engine n trace blobs =
        sweep [] engine n trace (blobs.filter (fun b => b ∉ black)) := by
  intro blobs
  induction blobs with
  | nil => intro engine n trace; rfl
  | cons digest rest ih =>
    intro engine n trace
    by_cases hb : digest ∈ black
    · simp [sweep, hb, ih]
    · simp only [sweep, hb, if_false, not_false_eq_true, decide_True, List.filter_cons_of_pos,
        List.not_mem_nil]
      cases engine.DeleteBlob digest with
      | error err => rfl
      | ok engine1 => exact ih engine1 (n + 1) _

theorem sweep_deletable :
    ∀ (pre : List String) (engine : Engine) (n : Nat) (trace : List Call) (rest : List String),
      (∀ y ∈ pre, engine.deleteBlobError y = none) →
      sweep [] engine n trace (pre ++ rest) =
        sweep [] (engine.without pre) (n + pre.length) (trace ++ pre.map Call.DeleteBlob)
          rest := by
  intro pre
  induction pre with
  | nil => intro engine n trace rest _; simp [Engine.without_nil]
  | cons y pre ih =>
    intro engine n trace rest hall
    have hy := hall y (List.mem_cons_self _ _)
    simp only [List.cons_append, sweep, List.not_mem_nil, if_false, Engine.DeleteBlob_ok _ _ hy]
    change sweep [] (engine.without [y]) (n + 1) (trace ++ [Call.DeleteBlob y]) (pre ++ rest) = _
    rw [ih (engine.without [y]) (n + 1) _ rest
      (fun z hz => hall z (List.mem_cons_of_mem _ hz))]
    rw [Engine.without_without]
    simp [Nat.add_assoc, Nat.add_comm 1]

theorem sweep_ok (black : List String) (engine : Engine) (trace : List Call)
    (hall : ∀ y ∈ white engine black, engine.deleteBlobError y = none) :
    sweep black engine 0 trace engine.blobs =
      { engine := engine.without (white engine black),
        n := (white engine black).length,
        trace := trace ++ (white engine black).map Call.DeleteBlob,
        err := none } := by
  unfold white at hall ⊢
  rw [sweep_filter]
  have h := sweep_deletable _ engine 0 trace [] hall
  rw [List.append_nil] at h
  rw [h]
  simp [sweep]

theorem sweep_error (black : List String) (engine : Engine) (trace : List Call)
    (pre : List String) (x : String) (post : List String) (err : Error)
    (hsplit : white engine black = pre ++ x :: post)
    (hpre : ∀ y ∈ pre, engine.deleteBlobError y = none)
    (hx : engine.deleteBlobError x = some err) :
    sweep black engine 0 trace engine.blobs =
      { engine := engine.without pre, n := pre.length,
        trace := trace ++ (pre ++ [x]).map Call.DeleteBlob,
        err := some (Failure.ofError ("remove unmarked blob " ++ x) err) } := by
  unfold white at hsplit
  rw [sweep_filter, hsplit, sweep_deletable pre engine 0 trace _ hpre]
  have hx2 : (engine.without pre).deleteBlobError x = some err := hx
  simp [sweep, Engine.DeleteBlob_error _ _ _ hx2]

theorem gatherRoots_resolved (engine : Engine) :
    ∀ (pre : List String) (root : List Descriptor) (trace : List Call) (rest : List String),
      (∀ y ∈ pre, ∃ d, engine.GetReference y = Except.ok d) →
      gatherRoots engine (pre ++ rest) root trace =
        gatherRoots engine rest (root ++ pre.filterMap engine.resolve)
          (trace ++ pre.map Call.GetReference) := by
  intro pre
  induction pre with
  | nil => intro root trace rest _; simp
  | cons y pre ih =>
    intro root trace rest hall
    obtain ⟨d, hd⟩ := hall y (List.mem_cons_self _ _)
    have hres : engine.resolve y = some d := by simp [Engine.resolve, hd]
    simp only [List.cons_append, gatherRoots, hd]
    change gatherRoots engine (pre ++ rest) (root ++ [d]) (trace ++ [Call.GetReference y]) = _
    rw [ih _ _ rest (fun z hz => hall z (List.mem_cons_of_mem _ hz))]
    simp [List.filterMap_cons, hres]

/-! ## The paths through `GC` -/

theorem Engine.resolveError_none {engine : Engine} {name : String}
    (h : engine.resolveError name = none) : ∃ d, engine.GetReference name = Except.ok d := by
  unfold Engine.resolveError at h
  cases hg : engine.GetReference name with
  | error err => simp [hg] at h
  | ok d => exact ⟨d, rfl⟩

theorem Engine.resolveError_some {engine : Engine} {name : String} {err : Error}
    (h : engine.resolveError name = some err) : engine.GetReference name = Except.error err := by
  unfold Engine.resolveError at h
  cases hg : engine.GetReference name with
  | error err2 => simp [hg] at h; rw [h]
  | ok d => simp [hg] at h

theorem gatherRoots_ok (engine : Engine) (names : List String)
    (hall : ∀ y ∈ names, ∃ d, engine.GetReference y = Except.ok d) :
    gatherRoots engine names [] [Call.ListReferences] =
      (Except.ok (names.filterMap engine.resolve), rootTrace names) := by
  have h := gatherRoots_resolved engine names [] [Call.ListReferences] [] hall
  rw [List.append_nil] at h
  rw [h]
  simp [gatherRoots, rootTrace]

theorem gatherRoots_error (engine : Engine) (pre : List String) (x : String)
    (post : List String) (err : Error)
    (hpre : ∀ y ∈ pre, ∃ d, engine.GetReference y = Except.ok d)
    (hx : engine.GetReference x = Except.error err) :
    gatherRoots engine (pre ++ x :: post) [] [Call.ListReferences] =
      (Except.error (Failure.ofError ("get root " ++ x) err), rootTrace (pre ++ [x])) := by
  rw [gatherRoots_resolved engine pre [] [Call.ListReferences] _ hpre]
  simp [gatherRoots, hx, rootTrace]

theorem Engine.roots_eq {engine : Engine} {names : List String}
    (h : engine.ListReferences = Except.ok names) :
    engine.roots = names.filterMap engine.resolve := by
  simp [Engine.roots, h]

theorem GC_path (fuel : Nat) (engine : Engine) (run : GCRun) (h : GC fuel engine = some run) :
    GCPath fuel engine run := by
  unfold GC at h
  cases hl : engine.ListReferences with
  | error err =>
    simp only [hl, Option.some.injEq] at h
    subst h
    exact GCPath.listReferences err hl
  | ok names =>
    simp only [hl] at h
    rcases first_error engine.resolveError names with hall | ⟨pre, x, post, err, hn, hpre, hx⟩
    · have hall2 : ∀ y ∈ names, ∃ d, engine.GetReference y = Except.ok d :=
        fun y hy => Engine.resolveError_none (hall y hy)
      rw [gatherRoots_ok engine names hall2] at h
      simp only [← Engine.roots_eq hl] at h
      cases hm : markRoots fuel { engine := engine, black := [] } (rootTrace names) 0
          engine.roots with
      | none => simp [hm] at h
      | some m =>
        simp only [hm] at h
        cases he : m.err with
        | some f =>
          simp only [he, Option.some.injEq] at h
          subst h
          exact GCPath.mark names m f hl hall2 hm he
        | none =>
          simp only [he] at h
          cases hb : engine.listBlobsError with
          | some err =>
            simp only [Engine.ListBlobs, hb, Option.some.injEq] at h
            subst h
            exact GCPath.listBlobs names m err hl hall2 hm he hb
          | none =>
            simp only [Engine.ListBlobs, hb] at h
            rcases first_error engine.deleteBlobError (white engine m.gc.black) with
              hdel | ⟨pre, x, post, err, hsplit, hpre, hx⟩
            · rw [sweep_ok _ _ _ hdel] at h
              cases hg : engine.gcError with
              | some err =>
                have hg2 : (engine.without (white engine m.gc.black)).gcError = some err := hg
                simp only [Engine.GC, hg2, Option.some.injEq] at h
                subst h
                have := GCPath.compaction names m err hl hall2 hm he hb hdel hg
                simpa using this
              | none =>
                have hg2 : (engine.without (white engine m.gc.black)).gcError = none := hg
                simp only [Engine.GC, hg2, Option.some.injEq] at h
                subst h
                have := GCPath.done names m hl hall2 hm he hb hdel hg
                simpa using this
            · rw [sweep_error _ _ _ pre x post err hsplit hpre hx] at h
              simp only [Option.some.injEq] at h
              subst h
              have := GCPath.deleteBlob names m pre x post err hl hall2 hm he hb hsplit hpre hx
              simpa using this
    · subst hn
      rw [gatherRoots_error engine pre x post err
        (fun y hy => Engine.resolveError_none (hpre y hy)) (Engine.resolveError_some hx)] at h
      simp only [Option.some.injEq] at h
      subst h
      exact GCPath.getReference _ pre x post err hl rfl
        (fun y hy => Engine.resolveError_none (hpre y hy)) (Engine.resolveError_some hx)

theorem GC_returns (fuel : Nat) (engine : Engine) (hfuel : engine.blobs.length < fuel) :
    ∃ run, GC fuel engine = some run := by
  unfold GC
  cases hl : engine.ListReferences with
  | error err => exact ⟨_, rfl⟩
  | ok names =>
    simp only
    cases hg : gatherRoots engine names [] [Call.ListReferences] with
    | mk res trace1 =>
      cases res with
      | error f => exact ⟨_, rfl⟩
      | ok root =>
        simp only
        obtain ⟨m, hm⟩ := markRoots_returns engine fuel root { engine := engine, black := [] }
          trace1 0 rfl (lt_of_le_of_lt (unmarked_le_length engine []) hfuel)
        rw [hm]
        simp only
        cases m.err with
        | some f => exact ⟨_, rfl⟩
        | none =>
          simp only
          cases engine.ListBlobs with
          | error err => exact ⟨_, rfl⟩
          | ok blobs =>
            simp only
            cases (sweep m.gc.black engine 0 (m.trace ++ [Call.ListBlobs]) blobs).err with
            | some f => exact ⟨_, rfl⟩
            | none =>
              simp only
              cases (sweep m.gc.black engine 0 (m.trace ++ [Call.ListBlobs]) blobs).engine.GC with
              | error err => exact ⟨_, rfl⟩
              | ok engine1 => exact ⟨_, rfl⟩

/-! ## Lemmas on traces -/

theorem fetched_append (a b : List Call) : fetched (a ++ b) = fetched a ++ fetched b := by
  induction a with
  | nil => rfl
  | cons c rest ih => cases c <;> simp [fetched, ih]

theorem deleted_append (a b : List Call) : deleted (a ++ b) = deleted a ++ deleted b := by
  induction a with
  | nil => rfl
  | cons c rest ih => cases c <;> simp [deleted, ih]

theorem fetched_map_FromDescriptor (ds : List Descriptor) :
    fetched (ds.map Call.FromDescriptor) = ds.map Descriptor.Digest := by
  induction ds with
  | nil => rfl
  | cons d rest ih => simp [fetched, ih]

theorem deleted_map_FromDescriptor (ds : List Descriptor) :
    deleted (ds.map Call.FromDescriptor) = [] := by
  induction ds with
  | nil => rfl
  | cons d rest ih => simp [deleted, ih]

theorem fetched_map_DeleteBlob (l : List String) : fetched (l.map Call.DeleteBlob) = [] := by
  induction l with
  | nil => rfl
  | cons d rest ih => simp [fetched, ih]

theorem deleted_map_DeleteBlob (l : List String) : deleted (l.map Call.DeleteBlob) = l := by
  induction l with
  | nil => rfl
  | cons d rest ih => simp [deleted, ih]

theorem fetched_map_GetReference (l : List String) : fetched (l.map Call.GetReference) = [] := by
  induction l with
  | nil => rfl
  | cons d rest ih => simp [fetched, ih]

theorem deleted_map_GetReference (l : List String) : deleted (l.map Call.GetReference) = [] := by
  induction l with
  | nil => rfl
  | cons d rest ih => simp [deleted, ih]

theorem fetched_rootTrace (names : List String) : fetched (rootTrace names) = [] := by
  simp [rootTrace, fetched, fetched_map_GetReference]

theorem deleted_rootTrace (names : List String) : deleted (rootTrace names) = [] := by
  simp [rootTrace, deleted, deleted_map_GetReference]

theorem GC_not_mem_rootTrace (names : List String) : Call.GC ∉ rootTrace names := by
  simp [rootTrace]

theorem ListBlobs_not_mem_rootTrace (names : List String) :
    Call.ListBlobs ∉ rootTrace names := by
  simp [rootTrace]

/-- The trace of a mark phase begun after root gathering holds no deletion and
no compaction, and its fetches are the black set, oldest first. -/
theorem Continues.trace_facts {engine : Engine} {names : List String} {m : Marked}
    (h : Continues { engine := engine, black := [] } (rootTrace names) m) :
    deleted m.trace = [] ∧ Call.GC ∉ m.trace ∧ Call.ListBlobs ∉ m.trace ∧
      fetched m.trace = m.gc.black.reverse ∧ m.gc.black.Nodup := by
  have hn := h.nodup List.nodup_nil
  obtain ⟨_, ds, t, b, _, _⟩ := h
  refine ⟨?_, ?_, ?_, ?_, hn⟩
  · rw [t, deleted_append, deleted_rootTrace, deleted_map_FromDescriptor]; rfl
  · rw [t]; simp [rootTrace]
  · rw [t]; simp [rootTrace]
  · rw [t, b, fetched_append, fetched_rootTrace, fetched_map_FromDescriptor]; simp

/-! ## Reachability and the black set -/

theorem Reachable.star {engine : Engine} {root : List Descriptor} {c d : Descriptor}
    (hc : Reachable engine root c) (h : Relation.ReflTransGen (Edge engine) c d) :
    Reachable engine root d := by
  induction h with
  | refl => exact hc
  | tail _ hedge ih => exact Reachable.child ih hedge

theorem FromDescriptor_congr {engine : Engine} {d d2 : Descriptor} {blob2 : Blob}
    (hdig : d.Digest = d2.Digest) (hdec : engine.decode d = engine.decode d2)
    (h2 : FromDescriptor engine d2 = Except.ok blob2) :
    ∃ blob, FromDescriptor engine d = Except.ok blob ∧ blob.Data = blob2.Data := by
  have hmem := FromDescriptor_ok_mem h2
  unfold FromDescriptor at h2 ⊢
  rw [hdig, hdec]
  simp only [hmem, if_true] at h2 ⊢
  cases hd : engine.decode d2 with
  | error err => simp [hd] at h2
  | ok data =>
    simp only [hd, Except.ok.injEq] at h2
    subst h2
    exact ⟨_, rfl, rfl⟩

theorem Expanded.congr {engine : Engine} {black : List String} {d d2 : Descriptor}
    (hdig : d.Digest = d2.Digest) (hdec : engine.decode d = engine.decode d2)
    (h2 : Expanded engine black d2) : Expanded engine black d := by
  obtain ⟨blob2, children, hf, hc, hall⟩ := h2
  obtain ⟨blob, hb, hdata⟩ := FromDescriptor_congr hdig hdec hf
  exact ⟨blob, children, hb, by rw [hdata]; exact hc, hall⟩

/-- Soundness of the mark phase: every black digest is reachable from the
roots, whether marking succeeded or not. -/
theorem markRoots_sound {engine : Engine} {fuel : Nat} {root : List Descriptor}
    {trace : List Call} {idx : Nat} {m : Marked}
    (hm : markRoots fuel { engine := engine, black := [] } trace idx root = some m) :
    ∀ x ∈ m.gc.black, ReachableDigest engine root x := by
  obtain ⟨_, _, hnew⟩ := markRoots_spec engine fuel root _ trace idx m rfl hm
  intro x hx
  rcases hnew x hx with hold | ⟨c, hc, d2, hd, hr, _⟩
  · simp at hold
  · exact ⟨d2, (Reachable.root hc).star hr, hd⟩

/-- After a successful mark phase every black digest is the digest of a
reachable descriptor that was fetched and whose children are all black. -/
theorem markRoots_expanded {engine : Engine} {fuel : Nat} {root : List Descriptor}
    {trace : List Call} {idx : Nat} {m : Marked}
    (hm : markRoots fuel { engine := engine, black := [] } trace idx root = some m)
    (herr : m.err = none) :
    ∀ x ∈ m.gc.black, ∃ d, d.Digest = x ∧ Reachable engine root d ∧
      Expanded engine m.gc.black d := by
  obtain ⟨_, _, hnew⟩ := markRoots_spec engine fuel root _ trace idx m rfl hm
  intro x hx
  rcases hnew x hx with hold | ⟨c, hc, d2, hd, hr, hex⟩
  · simp at hold
  · exact ⟨d2, hd, (Reachable.root hc).star hr, hex herr⟩

/-- After a successful mark phase every black digest is in the inventory. -/
theorem markRoots_black_stored {engine : Engine} {fuel : Nat} {root : List Descriptor}
    {trace : List Call} {idx : Nat} {m : Marked}
    (hm : markRoots fuel { engine := engine, black := [] } trace idx root = some m)
    (herr : m.err = none) : ∀ x ∈ m.gc.black, x ∈ engine.blobs := by
  intro x hx
  obtain ⟨d, hd, _, blob, _, hf, _, _⟩ := markRoots_expanded hm herr x hx
  rw [← hd]
  exact FromDescriptor_ok_mem hf

/-- Completeness of a successful mark phase on a coherent store: every
reachable descriptor has a black digest, is fetched without error, and has all
its children black. -/
theorem markRoots_complete {engine : Engine} {fuel : Nat} {root : List Descriptor}
    {trace : List Call} {idx : Nat} {m : Marked}
    (hm : markRoots fuel { engine := engine, black := [] } trace idx root = some m)
    (herr : m.err = none) (hco : Coherent engine root) :
    ∀ d, Reachable engine root d → d.Digest ∈ m.gc.black ∧ Expanded engine m.gc.black d := by
  obtain ⟨_, hall, _⟩ := markRoots_spec engine fuel root _ trace idx m rfl hm
  have hexp := markRoots_expanded hm herr
  have key : ∀ d, Reachable engine root d → d.Digest ∈ m.gc.black →
      Expanded engine m.gc.black d := by
    intro d hr hb
    obtain ⟨d2, hd, hr2, hex⟩ := hexp _ hb
    exact hex.congr hd.symm (hco d d2 hr hr2 hd.symm)
  intro d hr
  induction hr with
  | root hmem =>
    have hb := hall herr _ hmem
    exact ⟨hb, key _ (Reachable.root hmem) hb⟩
  | child hrd hedge ih =>
    obtain ⟨blob, children, hf, hc, hcm⟩ := hedge
    obtain ⟨blob2, children2, hf2, hc2, hall2⟩ := ih.2
    rw [hf] at hf2
    simp only [Except.ok.injEq] at hf2
    subst hf2
    rw [hc] at hc2
    simp only [Except.ok.injEq] at hc2
    subst hc2
    have hb := hall2 _ hcm
    exact ⟨hb, key _ (Reachable.child hrd ⟨blob, children, hf, hc, hcm⟩) hb⟩

/-! ## Failures of `mark` -/

theorem forEachChild_failure (engine : Engine)
    (step : gcState → List Call → Descriptor → Option Marked)
    (hcont : ∀ gc trace d r, step gc trace d = some r → Continues gc trace r)
    (hstep : ∀ gc trace d r f, gc.engine = engine → step gc trace d = some r →
      r.err = some f → ∃ d2, Relation.ReflTransGen (Edge engine) d d2 ∧ FailsAt engine d2 f) :
    ∀ (cs : List Descriptor) (gc : gcState) (trace : List Call) (r : Marked) (f : Failure),
      gc.engine = engine → forEachChild step gc trace cs = some r → r.err = some f →
      ∃ c ∈ cs, ∃ d2, Relation.ReflTransGen (Edge engine) c d2 ∧ FailsAt engine d2 f := by
  intro cs
  induction cs with
  | nil =>
    intro gc trace r f _ h hf
    simp only [forEachChild, Option.some.injEq] at h
    subst h
    simp at hf
  | cons c rest ih =>
    intro gc trace r f hengine h hf
    simp only [forEachChild] at h
    cases hs : step gc trace c with
    | none => simp [hs] at h
    | some r1 =>
      simp only [hs] at h
      cases he : r1.err with
      | some f1 =>
        simp only [he, Option.some.injEq] at h
        subst h
        simp only [Option.some.injEq] at hf
        subst hf
        obtain ⟨d2, hr, hfa⟩ := hstep gc trace c r1 f1 hengine hs he
        exact ⟨c, List.mem_cons_self _ _, d2, hr, hfa⟩
      | none =>
        simp only [he] at h
        obtain ⟨c2, hc2, d2, hr, hfa⟩ :=
          ih r1.gc r1.trace r f ((hcont gc trace c r1 hs).1.trans hengine) h hf
        exact ⟨c2, List.mem_cons_of_mem _ hc2, d2, hr, hfa⟩

/-- A failure of `mark` on `d` arises at a descriptor reachable from `d`. -/
theorem mark_failure (engine : Engine) : ∀ (fuel : Nat) (gc : gcState) (trace : List Call)
    (d : Descriptor) (r : Marked) (f : Failure), gc.engine = engine →
    mark fuel gc trace d = some r → r.err = some f →
    ∃ d2, Relation.ReflTransGen (Edge engine) d d2 ∧ FailsAt engine d2 f := by
  intro fuel
  induction fuel with
  | zero => intro gc trace d r f _ h; simp [mark] at h
  | succ fuel ih =>
    intro gc trace d r f hengine h hf
    simp only [mark] at h
    split at h
    · simp only [Option.some.injEq] at h
      subst h
      simp at hf
    · split at h
      · rename_i err herr
        simp only [Option.some.injEq] at h
        subst h
        simp only [Option.some.injEq] at hf
        subst hf
        rw [hengine] at herr
        exact ⟨d, Relation.ReflTransGen.refl, herr⟩
      · rename_i blob hblob
        rw [hengine] at hblob
        split at h
        · rename_i p hp
          simp only [Option.some.injEq] at h
          subst h
          simp only [Option.some.injEq] at hf
          subst hf
          exact ⟨d, Relation.ReflTransGen.refl, blob, hblob, hp⟩
        · rename_i children hchildren
          obtain ⟨c, hc, d2, hr, hfa⟩ := forEachChild_failure engine (mark fuel)
            (mark_continues fuel) ih children { gc with black := d.Digest :: gc.black } _ r f
            hengine h hf
          exact ⟨d2, Relation.ReflTransGen.head ⟨blob, children, hblob, hchildren, hc⟩ hr, hfa⟩

/-- A failure of the mark phase of `GC` reports a failure that arises at a
descriptor reachable from the roots. -/
theorem markRoots_failure {engine : Engine} {fuel : Nat} {root : List Descriptor}
    {gc : gcState} {trace : List Call} {idx : Nat} {m : Marked} {f : Failure}
    (hengine : gc.engine = engine)
    (hm : markRoots fuel gc trace idx root = some m) (hf : m.err = some f) :
    ∃ f0 d2, Reported f0 f ∧ Reachable engine root d2 ∧ FailsAt engine d2 f0 := by
  obtain ⟨r0, h0, _, _, _, hrep⟩ := markRoots_forEachChild fuel root gc trace idx m hm
  obtain ⟨f0, hf0, hr⟩ := hrep f hf
  obtain ⟨c, hc, d2, hstar, hfa⟩ := forEachChild_failure engine (mark fuel)
    (mark_continues fuel) (mark_failure engine fuel) root gc trace r0 f0 hengine h0 hf0
  exact ⟨f0, d2, hr, (Reachable.root hc).star hstar, hfa⟩

/-! ## The paths determine the run -/

theorem GC_of_path (fuel : Nat) (engine : Engine) (run : GCRun) (h : GCPath fuel engine run) :
    GC fuel engine = some run := by
  cases h with
  | listReferences err hl => simp [GC, hl]
  | getReference names pre x post err hl hn hpre hx =>
    subst hn
    unfold GC
    simp only [hl]
    rw [gatherRoots_error engine pre x post err hpre hx]
  | mark names m f hl hres hm he =>
    unfold GC
    simp only [hl]
    rw [gatherRoots_ok engine names hres]
    simp only [← Engine.roots_eq hl, hm, he]
  | listBlobs names m err hl hres hm he hb =>
    unfold GC
    simp only [hl]
    rw [gatherRoots_ok engine names hres]
    simp only [← Engine.roots_eq hl, hm, he, Engine.ListBlobs, hb]
  | deleteBlob names m pre x post err hl hres hm he hb hsplit hpre hx =>
    unfold GC
    simp only [hl]
    rw [gatherRoots_ok engine names hres]
    simp only [← Engine.roots_eq hl, hm, he, Engine.ListBlobs, hb]
    rw [sweep_error _ _ _ pre x post err hsplit hpre hx]
  | compaction names m err hl hres hm he hb hdel hg =>
    have hg2 : (engine.without (white engine m.gc.black)).gcError = some err := hg
    unfold GC
    simp only [hl]
    rw [gatherRoots_ok engine names hres]
    simp only [← Engine.roots_eq hl, hm, he, Engine.ListBlobs, hb]
    rw [sweep_ok _ _ _ hdel]
    simp [Engine.GC, hg2]
  | done names m hl hres hm he hb hdel hg =>
    have hg2 : (engine.without (white engine m.gc.black)).gcError = none := hg
    unfold GC
    simp only [hl]
    rw [gatherRoots_ok engine names hres]
    simp only [← Engine.roots_eq hl, hm, he, Engine.ListBlobs, hb]
    rw [sweep_ok _ _ _ hdel]
    simp [Engine.GC, hg2]

/-- In every run the fetches are the black set, oldest first, the black set
has no repetition, and every deleted digest is white. -/
theorem GCPath.run_facts {fuel : Nat} {engine : Engine} {run : GCRun}
    (h : GCPath fuel engine run) :
    fetched run.trace = run.black.reverse ∧ run.black.Nodup ∧
      ∀ x ∈ deleted run.trace, x ∈ white engine run.black := by
  cases h with
  | listReferences err _ => simp [fetched, deleted]
  | getReference names pre x post err _ _ _ _ => simp [fetched_rootTrace, deleted_rootTrace]
  | mark names m f _ _ hm _ =>
    have hc := ((markRoots_spec engine fuel _ _ _ 0 m rfl hm).1).trace_facts
    simp [hc.1, hc.2.2.2.1, hc.2.2.2.2]
  | listBlobs names m err _ _ hm _ _ =>
    have hc := ((markRoots_spec engine fuel _ _ _ 0 m rfl hm).1).trace_facts
    simp [fetched_append, deleted_append, fetched, deleted, hc.1, hc.2.2.2.1, hc.2.2.2.2]
  | deleteBlob names m pre x post err _ _ hm _ _ hsplit _ _ =>
    have hc := ((markRoots_spec engine fuel _ _ _ 0 m rfl hm).1).trace_facts
    refine ⟨?_, hc.2.2.2.2, ?_⟩
    · simp [fetched_append, fetched, fetched_map_DeleteBlob, hc.2.2.2.1]
    · intro y hy
      simp only [deleted_append, hc.1, deleted, deleted_map_DeleteBlob, List.nil_append] at hy
      rw [hsplit]
      rcases List.mem_append.mp hy with h | h
      · exact List.mem_append_left _ h
      · rw [List.mem_singleton.mp h]
        exact List.mem_append_right _ (List.mem_cons_self _ _)
  | compaction names m err _ _ hm _ _ _ _ =>
    have hc := ((markRoots_spec engine fuel _ _ _ 0 m rfl hm).1).trace_facts
    refine ⟨?_, hc.2.2.2.2, ?_⟩
    · simp [fetched_append, fetched, fetched_map_DeleteBlob, hc.2.2.2.1]
    · intro y hy
      simpa [deleted_append, hc.1, deleted, deleted_map_DeleteBlob] using hy
  | done names m _ _ hm _ _ _ _ =>
    have hc := ((markRoots_spec engine fuel _ _ _ 0 m rfl hm).1).trace_facts
    refine ⟨?_, hc.2.2.2.2, ?_⟩
    · simp [fetched_append, fetched, fetched_map_DeleteBlob, hc.2.2.2.1]
    · intro y hy
      simpa [deleted_append, hc.1, deleted, deleted_map_DeleteBlob] using hy

/-! ## The budget does not change the result -/

theorem forEachChild_mono (step step2 : gcState → List Call → Descriptor → Option Marked)
    (hstep : ∀ gc trace d r, step gc trace d = some r → step2 gc trace d = some r) :
    ∀ (cs : List Descriptor) (gc : gcState) (trace : List Call) (r : Marked),
      forEachChild step gc trace cs = some r → forEachChild step2 gc trace cs = some r := by
  intro cs
  induction cs with
  | nil => intro gc trace r h; exact h
  | cons c rest ih =>
    intro gc trace r h
    simp only [forEachChild] at h ⊢
    cases hs : step gc trace c with
    | none => simp [hs] at h
    | some r1 =>
      simp only [hs] at h
      simp only [hstep gc trace c r1 hs]
      cases he : r1.err with
      | some f => simpa [he] using h
      | none =>
        simp only [he] at h ⊢
        exact ih r1.gc r1.trace r h

theorem mark_succ : ∀ (fuel : Nat) (gc : gcState) (trace : List Call) (d : Descriptor)
    (r : Marked), mark fuel gc trace d = some r → mark (fuel + 1) gc trace d = some r := by
  intro fuel
  induction fuel with
  | zero => intro gc trace d r h; simp [mark] at h
  | succ fuel ih =>
    intro gc trace d r h
    rw [mark] at h ⊢
    split
    · simpa [*] using h
    · rename_i hnot
      simp only [hnot, if_false] at h
      split
      · rename_i err herr
        simpa [herr] using h
      · rename_i blob hblob
        simp only [hblob] at h
        split
        · rename_i p hp
          simpa [hp] using h
        · rename_i children hchildren
          simp only [hchildren] at h
          exact forEachChild_mono (mark fuel) (mark (fuel + 1)) ih children _ _ r h

theorem mark_mono {fuel : Nat} {gc : gcState} {trace : List Call} {d : Descriptor} {r : Marked}
    (h : mark fuel gc trace d = some r) : ∀ k, fuel ≤ k → mark k gc trace d = some r := by
  intro k hk
  induction k with
  | zero =>
    have : fuel = 0 := by omega
    subst this
    exact h
  | succ k ih =>
    rcases Nat.eq_or_lt_of_le hk with heq | hlt
    · rw [← heq]; exact h
    · exact mark_succ k gc trace d r (ih (by omega))

/-! ## Marking on a store that fetches the same -/

theorem forEachChild_congr (engine engine2 : Engine)
    (step : gcState → List Call → Descriptor → Option Marked)
    (hcont : ∀ gc trace d r, step gc trace d = some r → Continues gc trace r)
    (hstep : ∀ gc trace d r, gc.engine = engine → step gc trace d = some r →
      (∀ c, c.Digest ∈ r.gc.black → FromDescriptor engine2 c = FromDescriptor engine c) →
      step { engine := engine2, black := gc.black } trace d =
        some { gc := { engine := engine2, black := r.gc.black }, trace := r.trace,
               err := r.err }) :
    ∀ (cs : List Descriptor) (gc : gcState) (trace : List Call) (r : Marked),
      gc.engine = engine → forEachChild step gc trace cs = some r →
      (∀ c, c.Digest ∈ r.gc.black → FromDescriptor engine2 c = FromDescriptor engine c) →
      forEachChild step { engine := engine2, black := gc.black } trace cs =
        some { gc := { engine := engine2, black := r.gc.black }, trace := r.trace,
               err := r.err } := by
  intro cs
  induction cs with
  | nil =>
    intro gc trace r _ h _
    simp only [forEachChild, Option.some.injEq] at h
    subst h
    rfl
  | cons c rest ih =>
    intro gc trace r hengine h hsame
    simp only [forEachChild] at h
    cases hs : step gc trace c with
    | none => simp [hs] at h
    | some r1 =>
      have hc1 := hcont gc trace c r1 hs
      simp only [hs] at h
      cases he : r1.err with
      | some f =>
        simp only [he, Option.some.injEq] at h
        subst h
        have h2 := hstep gc trace c r1 hengine hs hsame
        simp [forEachChild, h2, he]
      | none =>
        simp only [he] at h
        have hrest := forEachChild_continues step hcont rest r1.gc r1.trace r h
        have h2 := hstep gc trace c r1 hengine hs (fun c2 hc2 => hsame c2 (hrest.subset _ hc2))
        have h3 := ih r1.gc r1.trace r (hc1.1.trans hengine) h hsame
        simp [forEachChild, h2, he, h3]

theorem mark_congr (engine engine2 : Engine) : ∀ (fuel : Nat) (gc : gcState)
    (trace : List Call) (d : Descriptor) (r : Marked), gc.engine = engine →
    mark fuel gc trace d = some r →
    (∀ c, c.Digest ∈ r.gc.black → FromDescriptor engine2 c = FromDescriptor engine c) →
    mark fuel { engine := engine2, black := gc.black } trace d =
      some { gc := { engine := engine2, black := r.gc.black }, trace := r.trace,
             err := r.err } := by
  intro fuel
  induction fuel with
  | zero => intro gc trace d r _ h; simp [mark] at h
  | succ fuel ih =>
    intro gc trace d r hengine h hsame
    have hself := (mark_spec engine (fuel + 1) gc trace d r hengine h).2.1
    have hfd := hsame d hself
    rw [mark] at h ⊢
    split at h
    · rename_i hin
      simp only [Option.some.injEq] at h
      subst h
      simp [hin]
    · rename_i hnot
      simp only [hnot, if_false, hfd]
      rw [hengine] at h
      split at h
      · rename_i err herr
        simp only [Option.some.injEq] at h
        subst h
        simp [herr]
      · rename_i blob hblob
        split at h
        · rename_i p hp
          simp only [Option.some.injEq] at h
          subst h
          rfl
        · rename_i children hchildren
          exact forEachChild_congr engine engine2 (mark fuel) (mark_continues fuel) ih children
            { engine := engine, black := d.Digest :: gc.black } _ r rfl h hsame

theorem markRoots_congr (engine engine2 : Engine) (fuel : Nat) :
    ∀ (root : List Descriptor) (gc : gcState) (trace : List Call) (idx : Nat) (r : Marked),
      gc.engine = engine → markRoots fuel gc trace idx root = some r →
      (∀ c, c.Digest ∈ r.gc.black → FromDescriptor engine2 c = FromDescriptor engine c) →
      markRoots fuel { engine := engine2, black := gc.black } trace idx root =
        some { gc := { engine := engine2, black := r.gc.black }, trace := r.trace,
               err := r.err } := by
  intro root
  induction root with
  | nil =>
    intro gc trace idx r _ h _
    simp only [markRoots, Option.some.injEq] at h
    subst h
    rfl
  | cons d rest ih =>
    intro gc trace idx r hengine h hsame
    simp only [markRoots] at h
    cases hs : mark fuel gc trace d with
    | none => simp [hs] at h
    | some r1 =>
      have hc1 := mark_continues fuel gc trace d r1 hs
      simp only [hs] at h
      cases he : r1.err with
      | some f =>
        cases f with
        | error err =>
          simp only [he, Option.some.injEq] at h
          subst h
          have h2 := mark_congr engine engine2 fuel gc trace d r1 hengine hs hsame
          simp [markRoots, h2, he]
        | panic p =>
          simp only [he, Option.some.injEq] at h
          subst h
          have h2 := mark_congr engine engine2 fuel gc trace d r1 hengine hs hsame
          simp [markRoots, h2, he]
      | none =>
        simp only [he] at h
        have hrest := (markRoots_spec engine fuel rest r1.gc r1.trace (idx + 1) r
          (hc1.1.trans hengine) h).1
        have h2 := mark_congr engine engine2 fuel gc trace d r1 hengine hs
          (fun c2 hc2 => hsame c2 (hrest.subset _ hc2))
        have h3 := ih r1.gc r1.trace (idx + 1) r (hc1.1.trans hengine) h hsame
        simp [markRoots, h2, he, h3]

/-! ## Contract of `GC` -/

theorem mem_without_white (engine : Engine) (black : List String) (x : String) :
    x ∈ (engine.without (white engine black)).blobs ↔ x ∈ engine.blobs ∧ x ∈ black := by
  simp only [Engine.without, white, List.mem_filter, decide_eq_true_eq, not_and, not_not]
  constructor
  · rintro ⟨hx, h⟩
    exact ⟨hx, h hx⟩
  · rintro ⟨hx, h⟩
    exact ⟨hx, fun _ => h⟩

theorem scenario_coherent : Coherent scenario scenario.roots := by
  intro d d2 _ _ h
  simp [scenario, h]

/-- C1 (reachability closure).  On a store where descriptors of one digest decode
alike, a budget above the inventory size makes `GC` return, and when it returns
without error the digests left in the store are exactly the digests reachable
from the descriptors of the references by finite descriptor paths: no
reachable blob is removed and no unreachable blob is kept. -/
theorem GC_reachability_closure (fuel : Nat) (engine : Engine)
    (hfuel : engine.blobs.length < fuel) (hco : Coherent engine engine.roots) :
    ∃ run, GC fuel engine = some run ∧
      (run.err = none →
        ∀ x, x ∈ run.engine.blobs ↔ ReachableDigest engine engine.roots x) := by
  obtain ⟨run, hrun⟩ := GC_returns fuel engine hfuel
  refine ⟨run, hrun, ?_⟩
  cases GC_path fuel engine run hrun with
  | listReferences err _ => intro h; simp at h
  | getReference names pre x post err _ _ _ _ => intro h; simp at h
  | mark names m f _ _ _ _ => intro h; simp at h
  | listBlobs names m err _ _ _ _ _ => intro h; simp at h
  | deleteBlob names m pre x post err _ _ _ _ _ _ _ _ => intro h; simp at h
  | compaction names m err _ _ _ _ _ _ _ => intro h; simp at h
  | done names m hl hres hm he hb hdel hg =>
    intro _ x
    simp only [mem_without_white]
    constructor
    · rintro ⟨_, hbl⟩
      exact markRoots_sound hm x hbl
    · rintro ⟨d, hr, hd⟩
      have hbl := (markRoots_complete hm he hco d hr).1
      rw [hd] at hbl
      exact ⟨markRoots_black_stored hm he x hbl, hbl⟩

/-- Witness of C1: the scenario of the spec.  Blob `A` (tag `latest`) references
config `C` and layer `L1`, `O` is an orphan; `GC` succeeds, leaves the inventory
`A`, `C`, `L1` and reports one deletion. -/
theorem GC_reachability_closure_witness :
    scenario.blobs.length < 5 ∧ Coherent scenario scenario.roots ∧
    (GC 5 scenario).map (fun r => (r.err, r.engine.blobs, r.black, r.n, deleted r.trace)) =
      some (none, ["A", "C", "L1"], ["L1", "C", "A"], 1, ["O"]) ∧
    ∃ run, GC 5 scenario = some run ∧
      (run.err = none →
        ∀ x, x ∈ run.engine.blobs ↔ ReachableDigest scenario scenario.roots x) :=
  ⟨by decide, scenario_coherent, by decide,
    GC_reachability_closure 5 scenario (by decide) scenario_coherent⟩

/-- C2 (no blob is deleted before the full black set is computed).  In the run
of `GC`, successful or failing, every `DeleteBlob` call comes after the mark
phase returned without error for every root: the trace is the trace of that
complete mark phase, then `ListBlobs`, then the rest, and the mark phase holds
no deletion.  The digest deleted is not in the final black set, and on a
coherent store it is not reachable from any root. -/
theorem no_delete_before_marked (fuel : Nat) (engine : Engine)
    (hfuel : engine.blobs.length < fuel) :
    ∃ run, GC fuel engine = some run ∧
      ∀ x, x ∈ deleted run.trace →
        (∃ names m rest,
          markRoots fuel { engine := engine, black := [] } (rootTrace names) 0 engine.roots
            = some m ∧
          m.err = none ∧ m.gc.black = run.black ∧
          run.trace = m.trace ++ Call.ListBlobs :: rest ∧ deleted m.trace = []) ∧
        x ∉ run.black ∧
        (Coherent engine engine.roots → ¬ ReachableDigest engine engine.roots x) := by
  obtain ⟨run, hrun⟩ := GC_returns fuel engine hfuel
  refine ⟨run, hrun, ?_⟩
  have key : ∀ (names : List String) (m : Marked) (x : String),
      markRoots fuel { engine := engine, black := [] } (rootTrace names) 0 engine.roots
        = some m → m.err = none → x ∈ white engine m.gc.black →
      x ∉ m.gc.black ∧
        (Coherent engine engine.roots → ¬ ReachableDigest engine engine.roots x) := by
    intro names m x hm he hx
    have hnb : x ∉ m.gc.black := by
      simp only [white, List.mem_filter, decide_eq_true_eq] at hx
      exact hx.2
    refine ⟨hnb, fun hco hreach => ?_⟩
    obtain ⟨d, hr, hd⟩ := hreach
    have hbl := (markRoots_complete hm he hco d hr).1
    rw [hd] at hbl
    exact hnb hbl
  cases GC_path fuel engine run hrun with
  | listReferences err _ => intro x hx; simp [deleted] at hx
  | getReference names pre x post err _ _ _ _ =>
    intro y hy
    simp [deleted_rootTrace] at hy
  | mark names m f _ _ hm _ =>
    intro y hy
    have hc := (markRoots_spec engine fuel _ _ _ 0 m rfl hm).1
    simp [hc.trace_facts.1] at hy
  | listBlobs names m err _ _ hm _ _ =>
    intro y hy
    have hc := (markRoots_spec engine fuel _ _ _ 0 m rfl hm).1
    simp [deleted_append, hc.trace_facts.1, deleted] at hy
  | deleteBlob names m pre x post err _ _ hm he _ hsplit _ _ =>
    intro y hy
    have hc := (markRoots_spec engine fuel _ _ _ 0 m rfl hm).1
    have hy2 : y ∈ white engine m.gc.black := by
      simp only [deleted_append, hc.trace_facts.1, deleted, deleted_map_DeleteBlob,
        List.nil_append] at hy
      rw [hsplit]
      rcases List.mem_append.mp hy with h | h
      · exact List.mem_append_left _ h
      · rw [List.mem_singleton.mp h]
        exact List.mem_append_right _ (List.mem_cons_self _ _)
    refine ⟨⟨names, m, (pre ++ [x]).map Call.DeleteBlob, hm, he, rfl, by simp,
      hc.trace_facts.1⟩, ?_⟩
    exact key names m y hm he hy2
  | compaction names m err _ _ hm he _ _ _ =>
    intro y hy
    have hc := (markRoots_spec engine fuel _ _ _ 0 m rfl hm).1
    have hy2 : y ∈ white engine m.gc.black := by
      simpa [deleted_append, hc.trace_facts.1, deleted, deleted_map_DeleteBlob] using hy
    refine ⟨⟨names, m, (white engine m.gc.black).map Call.DeleteBlob ++ [Call.GC], hm, he, rfl,
      by simp, hc.trace_facts.1⟩, ?_⟩
    exact key names m y hm he hy2
  | done names m _ _ hm he _ _ _ =>
    intro y hy
    have hc := (markRoots_spec engine fuel _ _ _ 0 m rfl hm).1
    have hy2 : y ∈ white engine m.gc.black := by
      simpa [deleted_append, hc.trace_facts.1, deleted, deleted_map_DeleteBlob] using hy
    refine ⟨⟨names, m, (white engine m.gc.black).map Call.DeleteBlob ++ [Call.GC], hm, he, rfl,
      by simp, hc.trace_facts.1⟩, ?_⟩
    exact key names m y hm he hy2

/-- Witness of C2: in the scenario of the spec the only deletion, of the orphan
`O`, comes after the three fetches of the mark phase and `ListBlobs`. -/
theorem no_delete_before_marked_witness :
    scenario.blobs.length < 5 ∧
    (GC 5 scenario).map (fun r => r.trace) =
      some [Call.ListReferences, Call.GetReference "latest", Call.FromDescriptor descA,
        Call.FromDescriptor descC, Call.FromDescriptor descL1, Call.ListBlobs,
        Call.DeleteBlob "O", Call.GC] ∧
    ∃ run, GC 5 scenario = some run ∧
      ∀ x, x ∈ deleted run.trace →
        (∃ names m rest,
          markRoots 5 { engine := scenario, black := [] } (rootTrace names) 0 scenario.roots
            = some m ∧
          m.err = none ∧ m.gc.black = run.black ∧
          run.trace = m.trace ++ Call.ListBlobs :: rest ∧ deleted m.trace = []) ∧
        x ∉ run.black ∧
        (Coherent scenario scenario.roots → ¬ ReachableDigest scenario scenario.roots x) :=
  ⟨by decide, by decide, no_delete_before_marked 5 scenario (by decide)⟩

theorem corruptLayer_coherent : Coherent corruptLayer corruptLayer.roots := by
  intro d d2 _ _ h
  simp [corruptLayer, scenario, h]

theorem corruptLayer_reachable : Reachable corruptLayer corruptLayer.roots descL1 := by
  have hroot : Reachable corruptLayer corruptLayer.roots descA := Reachable.root (by decide)
  refine Reachable.child hroot ?_
  exact ⟨{ MediaType := "manifest", Digest := "A", Size := 3, Data := manifestA },
    [descC, descL1], by rfl, by rfl, by decide⟩

/-- C3 (fail-fast on an unreadable reachable blob).  On a coherent store, if
some descriptor reachable from a root fails to be fetched and decoded by
`FromDescriptor`, then `GC` does not succeed, makes no `DeleteBlob` call and no
call of the compaction hook, and leaves the store unchanged.  The failure is a
returned error whenever the decoded payloads can be walked without panic. -/
theorem fail_fast_unreadable_blob (fuel : Nat) (engine : Engine)
    (hfuel : engine.blobs.length < fuel) (hco : Coherent engine engine.roots)
    (d : Descriptor) (err : Error) (hreach : Reachable engine engine.roots d)
    (hfail : FromDescriptor engine d = Except.error err) :
    ∃ run, GC fuel engine = some run ∧ run.err ≠ none ∧
      (Walkable engine → ∃ e2, run.err = some (Failure.error e2)) ∧
      deleted run.trace = [] ∧ Call.GC ∉ run.trace ∧ run.engine = engine := by
  obtain ⟨run, hrun⟩ := GC_returns fuel engine hfuel
  refine ⟨run, hrun, ?_⟩
  have absurd_ok : ∀ (names : List String) (m : Marked),
      markRoots fuel { engine := engine, black := [] } (rootTrace names) 0 engine.roots
        = some m → m.err = none → False := by
    intro names m hm he
    obtain ⟨blob, _, hf, _, _⟩ := (markRoots_complete hm he hco d hreach).2
    rw [hfail] at hf
    simp at hf
  cases GC_path fuel engine run hrun with
  | listReferences e1 _ =>
    exact ⟨by simp, fun _ => ⟨_, rfl⟩, by simp [deleted], by simp, rfl⟩
  | getReference names pre x post e1 _ _ _ _ =>
    exact ⟨by simp, fun _ => ⟨_, rfl⟩, deleted_rootTrace _, GC_not_mem_rootTrace _, rfl⟩
  | mark names m f _ _ hm hf =>
    have hc := (markRoots_spec engine fuel _ _ _ 0 m rfl hm).1
    refine ⟨by simp, fun hw => ?_, hc.trace_facts.1, hc.trace_facts.2.1, rfl⟩
    obtain ⟨f0, d2, hrep, _, hfa⟩ := markRoots_failure rfl hm hf
    cases f0 with
    | error e0 =>
      obtain ⟨idx, hidx⟩ := hrep
      exact ⟨_, by rw [hidx]; rfl⟩
    | panic p =>
      obtain ⟨blob, hb, hp⟩ := hfa
      obtain ⟨children, hch⟩ := hw d2 blob hb
      rw [hp] at hch
      simp at hch
  | listBlobs names m e1 _ _ hm he _ => exact (absurd_ok names m hm he).elim
  | deleteBlob names m pre x post e1 _ _ hm he _ _ _ _ => exact (absurd_ok names m hm he).elim
  | compaction names m e1 _ _ hm he _ _ _ => exact (absurd_ok names m hm he).elim
  | done names m _ _ hm he _ _ _ => exact (absurd_ok names m hm he).elim

/-- Witness of C3: with layer `L1` corrupt, `GC` returns the error of the fetch
wrapped as `marking root 0`, and the inventory still holds the orphan `O`. -/
theorem fail_fast_unreadable_blob_witness :
    corruptLayer.blobs.length < 5 ∧ Coherent corruptLayer corruptLayer.roots ∧
    Reachable corruptLayer corruptLayer.roots descL1 ∧
    FromDescriptor corruptLayer descL1 = Except.error (Error.base "corrupt blob") ∧
    (GC 5 corruptLayer).map (fun r => (r.err, r.engine.blobs, deleted r.trace)) =
      some (some (Failure.error (Error.wrap "marking root 0" (Error.base "corrupt blob"))),
        ["A", "C", "L1", "O"], []) ∧
    ∃ run, GC 5 corruptLayer = some run ∧ run.err ≠ none ∧
      (Walkable corruptLayer → ∃ e2, run.err = some (Failure.error e2)) ∧
      deleted run.trace = [] ∧ Call.GC ∉ run.trace ∧ run.engine = corruptLayer :=
  ⟨by decide, corruptLayer_coherent, corruptLayer_reachable, by rfl, by decide,
    fail_fast_unreadable_blob 5 corruptLayer (by decide) corruptLayer_coherent descL1
      (Error.base "corrupt blob") corruptLayer_reachable (by rfl)⟩

/-- C4 (black set characterisation).  Starting from an empty black set on a
coherent store, the mark of every root in turn returns within a budget above
the inventory size, and when it returns without error a digest is black if and
only if it is the digest of a descriptor reachable from a root by a finite
descriptor path (a root itself being reachable by the empty path); the
digests visited, that is fetched, are exactly the black set, oldest first. -/
theorem black_set_characterisation (fuel : Nat) (engine : Engine) (root : List Descriptor)
    (trace : List Call) (hfuel : engine.blobs.length < fuel) (hco : Coherent engine root) :
    ∃ m, markRoots fuel { engine := engine, black := [] } trace 0 root = some m ∧
      (m.err = none →
        (∀ x, x ∈ m.gc.black ↔ ReachableDigest engine root x) ∧
        fetched m.trace = fetched trace ++ m.gc.black.reverse) := by
  obtain ⟨m, hm⟩ := markRoots_returns engine fuel root { engine := engine, black := [] }
    trace 0 rfl (lt_of_le_of_lt (unmarked_le_length engine []) hfuel)
  refine ⟨m, hm, fun he => ⟨fun x => ⟨markRoots_sound hm x, ?_⟩, ?_⟩⟩
  · rintro ⟨d, hr, hd⟩
    have hbl := (markRoots_complete hm he hco d hr).1
    rw [hd] at hbl
    exact hbl
  · obtain ⟨_, ds, t, b, _, _⟩ := (markRoots_spec engine fuel root _ trace 0 m rfl hm).1
    rw [t, b, fetched_append, fetched_map_FromDescriptor]
    simp

theorem scenario_coherent_descA : Coherent scenario [descA] := by
  intro d d2 _ _ h
  simp [scenario, h]

/-- Witness of C4: marking the root `A` of the scenario leaves the black set
`A`, `C`, `L1`, which are the digests fetched. -/
theorem black_set_characterisation_witness :
    scenario.blobs.length < 5 ∧ Coherent scenario [descA] ∧
    (markRoots 5 { engine := scenario, black := [] } [] 0 [descA]).map
      (fun m => (m.err, m.gc.black, fetched m.trace)) =
      some (none, ["L1", "C", "A"], ["A", "C", "L1"]) ∧
    ∃ m, markRoots 5 { engine := scenario, black := [] } [] 0 [descA] = some m ∧
      (m.err = none →
        (∀ x, x ∈ m.gc.black ↔ ReachableDigest scenario [descA] x) ∧
        fetched m.trace = fetched [] ++ m.gc.black.reverse) :=
  ⟨by decide, scenario_coherent_descA, by decide,
    black_set_characterisation 5 scenario [descA] [] (by decide) scenario_coherent_descA⟩

theorem white_length (engine : Engine) (black : List String) (hnodup : engine.blobs.Nodup)
    (hb : black.Nodup) (hsub : ∀ x ∈ black, x ∈ engine.blobs) :
    (white engine black).length + black.length = engine.blobs.length := by
  have hperm : (engine.blobs.filter (fun b => b ∈ black)).Perm black := by
    rw [List.perm_ext_iff_of_nodup (hnodup.filter _) hb]
    intro x
    simp only [List.mem_filter, decide_eq_true_eq]
    exact ⟨fun h => h.2, fun h => ⟨hsub x h, h⟩⟩
  have hlen : engine.blobs.length = _ :=
    List.length_eq_length_filter_add (fun b => decide (b ∈ black))
  have hw : white engine black = engine.blobs.filter (fun b => !decide (b ∈ black)) := by
    unfold white
    apply List.filter_congr
    intro x _
    simp
  rw [hw]
  have hpl := hperm.length_eq
  omega

/-- C5 (orphan collection).  On a coherent store whose inventory lists each
blob once, when `GC` returns without error every blob of the inventory that is
not reachable from any root is passed to `DeleteBlob` exactly once, no other
digest is passed to `DeleteBlob`, and the deletion count `n` is the inventory
size minus the black-set size. -/
theorem orphan_collection (fuel : Nat) (engine : Engine)
    (hfuel : engine.blobs.length < fuel) (hco : Coherent engine engine.roots)
    (hnodup : engine.blobs.Nodup) :
    ∃ run, GC fuel engine = some run ∧
      (run.err = none →
        (∀ x, x ∈ engine.blobs → ¬ ReachableDigest engine engine.roots x →
          (deleted run.trace).count x = 1) ∧
        (∀ x, x ∈ deleted run.trace →
          x ∈ engine.blobs ∧ ¬ ReachableDigest engine engine.roots x) ∧
        run.n = (deleted run.trace).length ∧
        run.black.length ≤ engine.blobs.length ∧
        run.n = engine.blobs.length - run.black.length) := by
  obtain ⟨run, hrun⟩ := GC_returns fuel engine hfuel
  refine ⟨run, hrun, ?_⟩
  cases GC_path fuel engine run hrun with
  | listReferences err _ => intro h; simp at h
  | getReference names pre x post err _ _ _ _ => intro h; simp at h
  | mark names m f _ _ _ _ => intro h; simp at h
  | listBlobs names m err _ _ _ _ _ => intro h; simp at h
  | deleteBlob names m pre x post err _ _ _ _ _ _ _ _ => intro h; simp at h
  | compaction names m err _ _ _ _ _ _ _ => intro h; simp at h
  | done names m hl hres hm he hb hdel hg =>
    intro _
    have hc := (markRoots_spec engine fuel _ _ _ 0 m rfl hm).1
    have hdeleted : deleted (m.trace ++ [Call.ListBlobs] ++
        (white engine m.gc.black).map Call.DeleteBlob ++ [Call.GC]) = white engine m.gc.black := by
      simp [deleted_append, hc.trace_facts.1, deleted, deleted_map_DeleteBlob]
    have hwn : (white engine m.gc.black).Nodup := hnodup.filter _
    have hlen := white_length engine m.gc.black hnodup hc.trace_facts.2.2.2.2
      (markRoots_black_stored hm he)
    simp only [hdeleted]
    refine ⟨fun x hx hnr => ?_, fun x hx => ?_, trivial, by omega, by omega⟩
    · apply List.count_eq_one_of_mem hwn
      simp only [white, List.mem_filter, decide_eq_true_eq]
      exact ⟨hx, fun hbl => hnr (markRoots_sound hm x hbl)⟩
    · simp only [white, List.mem_filter, decide_eq_true_eq] at hx
      refine ⟨hx.1, ?_⟩
      rintro ⟨d, hr, hd⟩
      have hbl := (markRoots_complete hm he hco d hr).1
      rw [hd] at hbl
      exact hx.2 hbl

/-- Witness of C5: in the scenario the orphan `O` is deleted once and the count
is `1 = 4 - 3`. -/
theorem orphan_collection_witness :
    scenario.blobs.length < 5 ∧ Coherent scenario scenario.roots ∧ scenario.blobs.Nodup ∧
    (GC 5 scenario).map (fun r => (r.err, deleted r.trace, r.n, r.black.length)) =
      some (none, ["O"], 1, 3) ∧
    ∃ run, GC 5 scenario = some run ∧
      (run.err = none →
        (∀ x, x ∈ scenario.blobs → ¬ ReachableDigest scenario scenario.roots x →
          (deleted run.trace).count x = 1) ∧
        (∀ x, x ∈ deleted run.trace →
          x ∈ scenario.blobs ∧ ¬ ReachableDigest scenario scenario.roots x) ∧
        run.n = (deleted run.trace).length ∧
        run.black.length ≤ scenario.blobs.length ∧
        run.n = scenario.blobs.length - run.black.length) :=
  ⟨by decide, scenario_coherent, by decide, by decide,
    orphan_collection 5 scenario (by decide) scenario_coherent (by decide)⟩

theorem white_without_white (engine : Engine) (black : List String) :
    white (engine.without (white engine black)) black = [] := by
  unfold white
  rw [List.filter_eq_nil_iff]
  intro x hx
  have := (mem_without_white engine black x).mp hx
  simp [this.2]

theorem FromDescriptor_without_white (engine : Engine) (black : List String)
    (hsub : ∀ x ∈ black, x ∈ engine.blobs) (c : Descriptor) (hc : c.Digest ∈ black) :
    FromDescriptor (engine.without (white engine black)) c = FromDescriptor engine c := by
  have h1 : c.Digest ∈ (engine.without (white engine black)).blobs :=
    (mem_without_white engine black _).mpr ⟨hsub _ hc, hc⟩
  have h2 : c.Digest ∈ engine.blobs := hsub _ hc
  have h3 : (engine.without (white engine black)).decode = engine.decode := rfl
  simp only [FromDescriptor, h1, h2, if_true, h3]

/-- C6 (idempotence).  When `GC` returns without error, running `GC` again on
the resulting store also returns without error, makes no `DeleteBlob` call,
counts zero deletions, leaves the inventory unchanged and computes the same
black set. -/
theorem GC_idempotent (fuel : Nat) (engine : Engine) (hfuel : engine.blobs.length < fuel) :
    ∃ run, GC fuel engine = some run ∧
      (run.err = none →
        ∃ run2, GC fuel run.engine = some run2 ∧ run2.err = none ∧ run2.n = 0 ∧
          deleted run2.trace = [] ∧ run2.engine.blobs = run.engine.blobs ∧
          run2.black = run.black) := by
  obtain ⟨run, hrun⟩ := GC_returns fuel engine hfuel
  refine ⟨run, hrun, ?_⟩
  cases GC_path fuel engine run hrun with
  | listReferences err _ => intro h; simp at h
  | getReference names pre x post err _ _ _ _ => intro h; simp at h
  | mark names m f _ _ _ _ => intro h; simp at h
  | listBlobs names m err _ _ _ _ _ => intro h; simp at h
  | deleteBlob names m pre x post err _ _ _ _ _ _ _ _ => intro h; simp at h
  | compaction names m err _ _ _ _ _ _ _ => intro h; simp at h
  | done names m hl hres hm he hb hdel hg =>
    intro _
    have hstored := markRoots_black_stored hm he
    have hm2 := markRoots_congr engine (engine.without (white engine m.gc.black)) fuel
      engine.roots { engine := engine, black := [] } (rootTrace names) 0 m rfl hm
      (FromDescriptor_without_white engine m.gc.black hstored)
    have hw := white_without_white engine m.gc.black
    have hc := ((markRoots_spec engine fuel _ _ _ 0 m rfl hm).1).trace_facts
    have hpath : GCPath fuel (engine.without (white engine m.gc.black)) _ :=
      GCPath.done names
        { gc := { engine := engine.without (white engine m.gc.black), black := m.gc.black },
          trace := m.trace, err := m.err } hl hres hm2 he hb
        (by intro y hy; rw [hw] at hy; simp at hy) hg
    refine ⟨_, GC_of_path _ _ _ hpath, rfl, ?_, ?_, ?_, rfl⟩
    · simp [hw]
    · simp [hw, deleted_append, hc.1, deleted]
    · simp [hw, Engine.without_nil]

/-- Witness of C6: a second run on the collected scenario deletes nothing. -/
theorem GC_idempotent_witness :
    scenario.blobs.length < 5 ∧
    ((GC 5 scenario).bind (fun run => GC 5 run.engine)).map
      (fun r => (r.err, r.engine.blobs, r.black, r.n, deleted r.trace)) =
      some (none, ["A", "C", "L1"], ["L1", "C", "A"], 0, []) ∧
    ∃ run, GC 5 scenario = some run ∧
      (run.err = none →
        ∃ run2, GC 5 run.engine = some run2 ∧ run2.err = none ∧ run2.n = 0 ∧
          deleted run2.trace = [] ∧ run2.engine.blobs = run.engine.blobs ∧
          run2.black = run.black) :=
  ⟨by decide, by decide, GC_idempotent 5 scenario (by decide)⟩

/-- C7 (cycle-safety).  On every store, cyclic or not, `mark` returns on every
descriptor once the budget exceeds the size of the inventory, with a result
that no larger budget changes.  The recursion is well-founded because every
fetch is of a digest that was not black before and is black afterwards, the
fetched digests being pairwise distinct, and a descriptor whose digest is
already black returns at once with the state and the trace untouched. -/
theorem mark_cycle_safe (fuel : Nat) (gc : gcState) (trace : List Call) (d : Descriptor)
    (hfuel : gc.engine.blobs.length < fuel) :
    (∃ r, mark fuel gc trace d = some r ∧ (∀ k, fuel ≤ k → mark k gc trace d = some r) ∧
      ∃ ds : List Descriptor,
        r.trace = trace ++ ds.map Call.FromDescriptor ∧
        r.gc.black = (ds.map Descriptor.Digest).reverse ++ gc.black ∧
        (ds.map Descriptor.Digest).Nodup ∧ ∀ x ∈ ds.map Descriptor.Digest, x ∉ gc.black) ∧
    (d.Digest ∈ gc.black → mark fuel gc trace d = some { gc := gc, trace := trace, err := none })
    := by
  obtain ⟨r, hr⟩ := mark_returns gc.engine fuel gc trace d rfl
    (lt_of_le_of_lt (unmarked_le_length gc.engine gc.black) hfuel)
  refine ⟨⟨r, hr, mark_mono hr, (mark_continues fuel gc trace d r hr).2⟩, fun hin => ?_⟩
  cases fuel with
  | zero => simp at hfuel
  | succ k => simp [mark, hin]

/-- Witness of C7: on the cyclic store `mark` returns from `A` with the black
set `B`, `A` after two fetches. -/
theorem mark_cycle_safe_witness :
    cyclic.blobs.length < 3 ∧
    (mark 3 { engine := cyclic, black := [] } []
        { MediaType := "manifest", Digest := "A", Size := 1 }).map
      (fun r => (r.err, r.gc.black, fetched r.trace)) = some (none, ["B", "A"], ["A", "B"]) ∧
    ((∃ r, mark 3 { engine := cyclic, black := [] } []
        { MediaType := "manifest", Digest := "A", Size := 1 } = some r ∧
      (∀ k, 3 ≤ k → mark k { engine := cyclic, black := [] } []
        { MediaType := "manifest", Digest := "A", Size := 1 } = some r) ∧
      ∃ ds : List Descriptor,
        r.trace = [] ++ ds.map Call.FromDescriptor ∧
        r.gc.black = (ds.map Descriptor.Digest).reverse ++ [] ∧
        (ds.map Descriptor.Digest).Nodup ∧ ∀ x ∈ ds.map Descriptor.Digest, x ∉ []) ∧
    ("A" ∈ ([] : List String) → mark 3 { engine := cyclic, black := [] } []
        { MediaType := "manifest", Digest := "A", Size := 1 } =
        some { gc := { engine := cyclic, black := [] }, trace := [], err := none })) :=
  ⟨by decide, by decide,
    mark_cycle_safe 3 { engine := cyclic, black := [] } []
      { MediaType := "manifest", Digest := "A", Size := 1 } (by decide)⟩

/-- C8 (diamond sharing).  In the run of `GC` the digests fetched by
`FromDescriptor` are pairwise distinct, so each digest is fetched at most once
however many roots or parents reference it; they are exactly the black set,
which holds each digest once, and no black digest is passed to `DeleteBlob`.
Calling `mark` on a descriptor whose digest is already black makes no engine
call and leaves the black set unchanged. -/
theorem diamond_sharing (fuel : Nat) (engine : Engine) (hfuel : engine.blobs.length < fuel) :
    ∃ run, GC fuel engine = some run ∧
      (fetched run.trace).Nodup ∧ fetched run.trace = run.black.reverse ∧ run.black.Nodup ∧
      (∀ x ∈ run.black, x ∉ deleted run.trace) ∧
      ∀ (gc : gcState) (trace : List Call) (d : Descriptor) (k : Nat),
        d.Digest ∈ gc.black →
        mark (k + 1) gc trace d = some { gc := gc, trace := trace, err := none } := by
  obtain ⟨run, hrun⟩ := GC_returns fuel engine hfuel
  obtain ⟨hf, hn, hd⟩ := (GC_path fuel engine run hrun).run_facts
  refine ⟨run, hrun, ?_, hf, hn, ?_, ?_⟩
  · rw [hf]
    exact List.nodup_reverse.mpr hn
  · intro x hx hdel
    have := hd x hdel
    simp only [white, List.mem_filter, decide_eq_true_eq] at this
    exact this.2 hx
  · intro gc trace d k hin
    simp [mark, hin]

/-- Witness of C8: in the diamond store the shared layer `D` is fetched once,
is black once and is not deleted. -/
theorem diamond_sharing_witness :
    diamond.blobs.length < 4 ∧
    (GC 4 diamond).map (fun r => (r.err, fetched r.trace, r.black, deleted r.trace, r.n)) =
      some (none, ["M1", "D", "M2"], ["M2", "D", "M1"], [], 0) ∧
    (GC 4 diamond).map (fun r => (fetched r.trace).count "D") = some 1 ∧
    ∃ run, GC 4 diamond = some run ∧
      (fetched run.trace).Nodup ∧ fetched run.trace = run.black.reverse ∧ run.black.Nodup ∧
      (∀ x ∈ run.black, x ∉ deleted run.trace) ∧
      ∀ (gc : gcState) (trace : List Call) (d : Descriptor) (k : Nat),
        d.Digest ∈ gc.black →
        mark (k + 1) gc trace d = some { gc := gc, trace := trace, err := none } :=
  ⟨by decide, by decide, by decide, diamond_sharing 4 diamond (by decide)⟩

/-- C9 (root resolution failure aborts the whole run).  If `GetReference` fails
for one of the names returned by `ListReferences`, then `GC` returns, whatever
the budget, the error of the first name that fails, wrapped with that name.
The only engine calls made are `ListReferences` and the `GetReference` calls up
to that name, earlier names having resolved: no blob is fetched, marked or
deleted, `ListBlobs` and the compaction hook are not called, and the store is
unchanged. -/
theorem root_resolution_failure (fuel : Nat) (engine : Engine) (names : List String)
    (name : String) (err : Error) (hl : engine.ListReferences = Except.ok names)
    (hname : name ∈ names) (hfail : engine.GetReference name = Except.error err) :
    ∃ run, GC fuel engine = some run ∧
      ∃ pre x post e2, names = pre ++ x :: post ∧
        (∀ y ∈ pre, ∃ d, engine.GetReference y = Except.ok d) ∧
        engine.GetReference x = Except.error e2 ∧
        run.err = some (Failure.error (Error.wrap ("get root " ++ x) e2)) ∧
        run.trace = Call.ListReferences :: (pre ++ [x]).map Call.GetReference ∧
        fetched run.trace = [] ∧ deleted run.trace = [] ∧
        Call.ListBlobs ∉ run.trace ∧ Call.GC ∉ run.trace ∧
        run.black = [] ∧ run.n = 0 ∧ run.engine = engine := by
  rcases first_error engine.resolveError names with hall | ⟨pre, x, post, e2, hn, hpre, hx⟩
  · obtain ⟨d, hd⟩ := Engine.resolveError_none (hall name hname)
    rw [hfail] at hd
    simp at hd
  · have hpre2 : ∀ y ∈ pre, ∃ d, engine.GetReference y = Except.ok d :=
      fun y hy => Engine.resolveError_none (hpre y hy)
    have hx2 := Engine.resolveError_some hx
    refine ⟨_, GC_of_path fuel engine _ (GCPath.getReference names pre x post e2 hl hn hpre2 hx2),
      pre, x, post, e2, hn, hpre2, hx2, rfl, rfl, ?_, ?_, ?_, ?_, rfl, rfl, rfl⟩
    · exact fetched_rootTrace _
    · exact deleted_rootTrace _
    · exact ListBlobs_not_mem_rootTrace _
    · exact GC_not_mem_rootTrace _

/-- Witness of C9: the second of three references does not resolve; `GC`
stops there although the first one resolved, even with no budget at all. -/
theorem root_resolution_failure_witness :
    dangling.ListReferences = Except.ok ["latest", "broken", "other"] ∧
    "broken" ∈ ["latest", "broken", "other"] ∧
    dangling.GetReference "broken" = Except.error (Error.base "not found") ∧
    (GC 0 dangling).map (fun r => (r.err, r.trace, r.engine.blobs)) =
      some (some (Failure.error (Error.wrap "get root broken" (Error.base "not found"))),
        [Call.ListReferences, Call.GetReference "latest", Call.GetReference "broken"],
        ["A", "C", "L1", "O"]) ∧
    ∃ run, GC 0 dangling = some run ∧
      ∃ pre x post e2, ["latest", "broken", "other"] = pre ++ x :: post ∧
        (∀ y ∈ pre, ∃ d, dangling.GetReference y = Except.ok d) ∧
        dangling.GetReference x = Except.error e2 ∧
        run.err = some (Failure.error (Error.wrap ("get root " ++ x) e2)) ∧
        run.trace = Call.ListReferences :: (pre ++ [x]).map Call.GetReference ∧
        fetched run.trace = [] ∧ deleted run.trace = [] ∧
        Call.ListBlobs ∉ run.trace ∧ Call.GC ∉ run.trace ∧
        run.black = [] ∧ run.n = 0 ∧ run.engine = dangling :=
  ⟨rfl, by decide, rfl, by decide,
    root_resolution_failure 0 dangling ["latest", "broken", "other"] "broken"
      (Error.base "not found") rfl (by decide) rfl⟩

/-- C10 (sweep deletion failure).  If the mark phase and `ListBlobs` succeed
and `DeleteBlob` fails on an unmarked digest `x` of the inventory after
succeeding on the unmarked digests `pre` that come before it, then `GC`
returns the error of that deletion wrapped with the digest `x`.  The calls of
`DeleteBlob` are those on `pre` and the one on `x`, in inventory order; the
digests of `pre` are gone from the store and every other digest is still
there (no rollback, no later deletion), the count is the length of `pre`, and
the compaction hook is not invoked. -/
theorem sweep_deletion_failure (fuel : Nat) (engine : Engine) (names : List String)
    (m : Marked) (pre : List String) (x : String) (post : List String) (err : Error)
    (hl : engine.ListReferences = Except.ok names)
    (hres : ∀ y ∈ names, ∃ d, engine.GetReference y = Except.ok d)
    (hmark : markRoots fuel { engine := engine, black := [] } (rootTrace names) 0 engine.roots
      = some m)
    (hok : m.err = none)
    (hlist : engine.ListBlobs = Except.ok engine.blobs)
    (hsplit : white engine m.gc.black = pre ++ x :: post)
    (hpre : ∀ y ∈ pre, engine.DeleteBlob y = Except.ok (engine.without [y]))
    (hx : engine.DeleteBlob x = Except.error err) :
    ∃ run, GC fuel engine = some run ∧
      run.err = some (Failure.error (Error.wrap ("remove unmarked blob " ++ x) err)) ∧
      deleted run.trace = pre ++ [x] ∧ run.n = pre.length ∧
      (∀ y, y ∈ run.engine.blobs ↔ y ∈ engine.blobs ∧ y ∉ pre) ∧
      Call.GC ∉ run.trace ∧ run.black = m.gc.black := by
  have hb : engine.listBlobsError = none := by
    unfold Engine.ListBlobs at hlist
    cases h : engine.listBlobsError with
    | none => rfl
    | some e2 => simp [h] at hlist
  have hpre2 : ∀ y ∈ pre, engine.deleteBlobError y = none := by
    intro y hy
    have := hpre y hy
    unfold Engine.DeleteBlob at this
    cases h : engine.deleteBlobError y with
    | none => rfl
    | some e2 => simp [h] at this
  have hx2 : engine.deleteBlobError x = some err := by
    unfold Engine.DeleteBlob at hx
    cases h : engine.deleteBlobError x with
    | none => simp [h] at hx
    | some e2 => simp [h] at hx; rw [hx]
  have hc := ((markRoots_spec engine fuel _ _ _ 0 m rfl hmark).1).trace_facts
  refine ⟨_, GC_of_path fuel engine _
    (GCPath.deleteBlob names m pre x post err hl hres hmark hok hb hsplit hpre2 hx2),
    rfl, ?_, rfl, ?_, ?_, rfl⟩
  · simp [deleted_append, hc.1, deleted, deleted_map_DeleteBlob]
  · intro y
    simp [Engine.without, List.mem_filter]
  · simp [hc.2.1]

/-- Witness of C10: `O1` is deleted, the deletion of `O2` fails, `O3` is never
tried, and the store keeps `O2` and `O3`. -/
theorem sweep_deletion_failure_witness :
    (GC 7 stuck).map (fun r => (r.err, deleted r.trace, r.n, r.engine.blobs)) =
      some (some (Failure.error
          (Error.wrap "remove unmarked blob O2" (Error.base "permission denied"))),
        ["O1", "O2"], 1, ["A", "O2", "C", "L1", "O3"]) ∧
    ∃ run, GC 7 stuck = some run ∧
      run.err = some (Failure.error
        (Error.wrap ("remove unmarked blob " ++ "O2") (Error.base "permission denied"))) ∧
      deleted run.trace = ["O1"] ++ ["O2"] ∧ run.n = ["O1"].length ∧
      (∀ y, y ∈ run.engine.blobs ↔ y ∈ stuck.blobs ∧ y ∉ ["O1"]) ∧
      Call.GC ∉ run.trace ∧ run.black = ["L1", "C", "A"] :=
  ⟨by decide,
    sweep_deletion_failure 7 stuck ["latest"]
      { gc := { engine := stuck, black := ["L1", "C", "A"] },
        trace := [Call.ListReferences, Call.GetReference "latest", Call.FromDescriptor descA,
          Call.FromDescriptor descC, Call.FromDescriptor descL1],
        err := none }
      ["O1"] "O2" ["O3"] (Error.base "permission denied") rfl
      (fun y hy => ⟨descA, by
        rw [List.mem_singleton.mp hy]
        rfl⟩)
      (by rfl) rfl rfl (by decide)
      (fun y hy => by
        rw [List.mem_singleton.mp hy]
        rfl)
      rfl⟩

/-! ## Order of the engine calls -/

theorem count_map_eq_zero {α : Type} (c : Call) (f : α → Call) (l : List α)
    (h : ∀ a, f a ≠ c) : (l.map f).count c = 0 := by
  apply List.count_eq_zero.mpr
  intro hmem
  obtain ⟨a, _, ha⟩ := List.mem_map.mp hmem
  exact h a ha

/-- The trace of a mark phase begun after root gathering: the root trace
followed by fetches. -/
theorem Continues.trace_shape {engine : Engine} {names : List String} {m : Marked}
    (h : Continues { engine := engine, black := [] } (rootTrace names) m) :
    ∃ ds : List Descriptor,
      m.trace = Call.ListReferences ::
        (names.map Call.GetReference ++ ds.map Call.FromDescriptor) := by
  obtain ⟨_, ds, t, _, _, _⟩ := h
  exact ⟨ds, by rw [t]; simp [rootTrace]⟩

theorem count_ListReferences_marked {names : List String} {ds : List Descriptor} :
    (Call.ListReferences ::
      (names.map Call.GetReference ++ ds.map Call.FromDescriptor)).count Call.ListReferences
      = 1 := by
  rw [List.count_cons_self, List.count_append,
    count_map_eq_zero _ _ _ (fun a => by simp), count_map_eq_zero _ _ _ (fun a => by simp)]

theorem count_ListBlobs_marked {names : List String} {ds : List Descriptor} :
    (Call.ListReferences ::
      (names.map Call.GetReference ++ ds.map Call.FromDescriptor)).count Call.ListBlobs
      = 0 := by
  rw [List.count_cons_of_ne (by simp), List.count_append,
    count_map_eq_zero _ _ _ (fun a => by simp), count_map_eq_zero _ _ _ (fun a => by simp)]

theorem count_GC_marked {names : List String} {ds : List Descriptor} :
    (Call.ListReferences ::
      (names.map Call.GetReference ++ ds.map Call.FromDescriptor)).count Call.GC = 0 := by
  rw [List.count_cons_of_ne (by simp), List.count_append,
    count_map_eq_zero _ _ _ (fun a => by simp), count_map_eq_zero _ _ _ (fun a => by simp)]

/-- The shape of the trace of every run: `ListReferences`, reference
resolutions, fetches, and then either nothing or `ListBlobs`, deletions and
at most one call of the compaction hook at the very end. -/
theorem GCPath.shape {fuel : Nat} {engine : Engine} {run : GCRun}
    (h : GCPath fuel engine run) :
    ∃ (gets : List String) (ds : List Descriptor) (tail : List Call),
      run.trace = Call.ListReferences ::
        (gets.map Call.GetReference ++ ds.map Call.FromDescriptor) ++ tail ∧
      (tail = [] ∨ ∃ (dels : List String) (hook : List Call),
        tail = Call.ListBlobs :: (dels.map Call.DeleteBlob ++ hook) ∧
        (hook = [] ∨ hook = [Call.GC])) := by
  cases h with
  | listReferences err _ => exact ⟨[], [], [], by simp, Or.inl rfl⟩
  | getReference names pre x post err _ _ _ _ =>
    exact ⟨pre ++ [x], [], [], by simp [rootTrace], Or.inl rfl⟩
  | mark names m f _ _ hm _ =>
    obtain ⟨ds, ht⟩ := ((markRoots_spec engine fuel _ _ _ 0 m rfl hm).1).trace_shape
    exact ⟨names, ds, [], by simp [ht], Or.inl rfl⟩
  | listBlobs names m err _ _ hm _ _ =>
    obtain ⟨ds, ht⟩ := ((markRoots_spec engine fuel _ _ _ 0 m rfl hm).1).trace_shape
    exact ⟨names, ds, [Call.ListBlobs], by simp [ht], Or.inr ⟨[], [], by simp, Or.inl rfl⟩⟩
  | deleteBlob names m pre x post err _ _ hm _ _ _ _ _ =>
    obtain ⟨ds, ht⟩ := ((markRoots_spec engine fuel _ _ _ 0 m rfl hm).1).trace_shape
    exact ⟨names, ds, Call.ListBlobs :: (pre ++ [x]).map Call.DeleteBlob, by simp [ht],
      Or.inr ⟨pre ++ [x], [], by simp, Or.inl rfl⟩⟩
  | compaction names m err _ _ hm _ _ _ _ =>
    obtain ⟨ds, ht⟩ := ((markRoots_spec engine fuel _ _ _ 0 m rfl hm).1).trace_shape
    exact ⟨names, ds,
      Call.ListBlobs :: ((white engine m.gc.black).map Call.DeleteBlob ++ [Call.GC]),
      by simp [ht], Or.inr ⟨white engine m.gc.black, [Call.GC], rfl, Or.inr rfl⟩⟩
  | done names m _ _ hm _ _ _ _ =>
    obtain ⟨ds, ht⟩ := ((markRoots_spec engine fuel _ _ _ 0 m rfl hm).1).trace_shape
    exact ⟨names, ds,
      Call.ListBlobs :: ((white engine m.gc.black).map Call.DeleteBlob ++ [Call.GC]),
      by simp [ht], Or.inr ⟨white engine m.gc.black, [Call.GC], rfl, Or.inr rfl⟩⟩

/-- In every run `ListReferences` is the first call and is called once, and
`ListBlobs` is called at most once. -/
theorem GCPath.list_counts {fuel : Nat} {engine : Engine} {run : GCRun}
    (h : GCPath fuel engine run) :
    run.trace.head? = some Call.ListReferences ∧
      run.trace.count Call.ListReferences = 1 ∧ run.trace.count Call.ListBlobs ≤ 1 ∧
      (Call.ListBlobs ∈ run.trace → run.trace.count Call.ListBlobs = 1) := by
  obtain ⟨gets, ds, tail, ht, htail⟩ := h.shape
  have c1 := @count_ListReferences_marked gets ds
  have c2 := @count_ListBlobs_marked gets ds
  rw [ht]
  rcases htail with rfl | ⟨dels, hook, rfl, hhook⟩
  · refine ⟨rfl, ?_, ?_, ?_⟩
    · rw [List.append_nil]; exact c1
    · rw [List.append_nil, c2]; omega
    · intro hmem
      rw [List.append_nil] at hmem
      exact absurd (List.count_pos_iff.mpr hmem) (by rw [c2]; omega)
  · have d1 : (dels.map Call.DeleteBlob).count Call.ListReferences = 0 :=
      count_map_eq_zero _ _ _ (fun a => by simp)
    have d2 : (dels.map Call.DeleteBlob).count Call.ListBlobs = 0 :=
      count_map_eq_zero _ _ _ (fun a => by simp)
    have h1 : hook.count Call.ListReferences = 0 := by
      rcases hhook with rfl | rfl <;> simp
    have h2 : hook.count Call.ListBlobs = 0 := by
      rcases hhook with rfl | rfl <;> simp
    have e1 : (Call.ListReferences ::
        (gets.map Call.GetReference ++ ds.map Call.FromDescriptor) ++
        Call.ListBlobs :: (dels.map Call.DeleteBlob ++ hook)).count Call.ListReferences = 1 := by
      rw [List.count_append, c1, List.count_cons_of_ne (by simp), List.count_append, d1, h1]
    have e2 : (Call.ListReferences ::
        (gets.map Call.GetReference ++ ds.map Call.FromDescriptor) ++
        Call.ListBlobs :: (dels.map Call.DeleteBlob ++ hook)).count Call.ListBlobs = 1 := by
      rw [List.count_append, c2, List.count_cons_self, List.count_append, d2, h2]
    exact ⟨rfl, e1, by rw [e2], fun _ => e2⟩

/-- C11 (`GC` only calls `ListBlobs` and `ListReferences` once).  In the run of
`GC`, `ListReferences` is the first engine call and is called exactly once;
`ListBlobs` is called at most once, and exactly once on a run that reaches the
sweep (one that succeeds, deletes, or calls the compaction hook).  When
`ListBlobs` is called, the calls before it are the trace of the complete mark
phase, which returned without error and left the digest of every root black. -/
theorem lists_called_once (fuel : Nat) (engine : Engine)
    (hfuel : engine.blobs.length < fuel) :
    ∃ run, GC fuel engine = some run ∧
      run.trace.head? = some Call.ListReferences ∧
      run.trace.count Call.ListReferences = 1 ∧
      run.trace.count Call.ListBlobs ≤ 1 ∧
      ((run.err = none ∨ deleted run.trace ≠ [] ∨ Call.GC ∈ run.trace) →
        run.trace.count Call.ListBlobs = 1) ∧
      (Call.ListBlobs ∈ run.trace →
        ∃ names m rest,
          markRoots fuel { engine := engine, black := [] } (rootTrace names) 0 engine.roots
            = some m ∧
          m.err = none ∧ (∀ d ∈ engine.roots, d.Digest ∈ m.gc.black) ∧
          run.trace = m.trace ++ Call.ListBlobs :: rest ∧
          Call.ListBlobs ∉ m.trace ∧ Call.ListBlobs ∉ rest) := by
  obtain ⟨run, hrun⟩ := GC_returns fuel engine hfuel
  have hpath := GC_path fuel engine run hrun
  obtain ⟨hhead, hrefs, hle, hone⟩ := hpath.list_counts
  refine ⟨run, hrun, hhead, hrefs, hle, ?_, ?_⟩
  · intro hreach
    apply hone
    cases hpath with
    | listReferences err _ => simp [deleted] at hreach
    | getReference names pre x post err _ _ _ _ =>
      simp [deleted_rootTrace, GC_not_mem_rootTrace] at hreach
    | mark names m f _ _ hm _ =>
      have hc := ((markRoots_spec engine fuel _ _ _ 0 m rfl hm).1).trace_facts
      simp [hc.1, hc.2.1] at hreach
    | listBlobs names m err _ _ hm _ _ => simp
    | deleteBlob names m pre x post err _ _ hm _ _ _ _ _ => simp
    | compaction names m err _ _ hm _ _ _ _ => simp
    | done names m _ _ hm _ _ _ _ => simp
  · intro hmem
    cases hpath with
    | listReferences err _ => simp at hmem
    | getReference names pre x post err _ _ _ _ =>
      exact absurd hmem (ListBlobs_not_mem_rootTrace _)
    | mark names m f _ _ hm _ =>
      have hc := ((markRoots_spec engine fuel _ _ _ 0 m rfl hm).1).trace_facts
      exact absurd hmem hc.2.2.1
    | listBlobs names m err _ _ hm he _ =>
      have hs := markRoots_spec engine fuel _ _ _ 0 m rfl hm
      exact ⟨names, m, [], hm, he, hs.2.1 he, rfl, hs.1.trace_facts.2.2.1, by simp⟩
    | deleteBlob names m pre x post err _ _ hm he _ _ _ _ =>
      have hs := markRoots_spec engine fuel _ _ _ 0 m rfl hm
      exact ⟨names, m, (pre ++ [x]).map Call.DeleteBlob, hm, he, hs.2.1 he, by simp,
        hs.1.trace_facts.2.2.1, by simp⟩
    | compaction names m err _ _ hm he _ _ _ =>
      have hs := markRoots_spec engine fuel _ _ _ 0 m rfl hm
      exact ⟨names, m, (white engine m.gc.black).map Call.DeleteBlob ++ [Call.GC], hm, he,
        hs.2.1 he, by simp, hs.1.trace_facts.2.2.1, by simp⟩
    | done names m _ _ hm he _ _ _ =>
      have hs := markRoots_spec engine fuel _ _ _ 0 m rfl hm
      exact ⟨names, m, (white engine m.gc.black).map Call.DeleteBlob ++ [Call.GC], hm, he,
        hs.2.1 he, by simp, hs.1.trace_facts.2.2.1, by simp⟩

/-- Witness of C11: the run on the scenario of the spec calls `ListReferences`
first and once, and `ListBlobs` once, after the three fetches. -/
theorem lists_called_once_witness :
    scenario.blobs.length < 5 ∧
    (GC 5 scenario).map
      (fun r => (r.trace.count Call.ListReferences, r.trace.count Call.ListBlobs,
        r.trace.take 6)) =
      some (1, 1, [Call.ListReferences, Call.GetReference "latest", Call.FromDescriptor descA,
        Call.FromDescriptor descC, Call.FromDescriptor descL1, Call.ListBlobs]) ∧
    ∃ run, GC 5 scenario = some run ∧
      run.trace.head? = some Call.ListReferences ∧
      run.trace.count Call.ListReferences = 1 ∧
      run.trace.count Call.ListBlobs ≤ 1 ∧
      ((run.err = none ∨ deleted run.trace ≠ [] ∨ Call.GC ∈ run.trace) →
        run.trace.count Call.ListBlobs = 1) ∧
      (Call.ListBlobs ∈ run.trace →
        ∃ names m rest,
          markRoots 5 { engine := scenario, black := [] } (rootTrace names) 0 scenario.roots
            = some m ∧
          m.err = none ∧ (∀ d ∈ scenario.roots, d.Digest ∈ m.gc.black) ∧
          run.trace = m.trace ++ Call.ListBlobs :: rest ∧
          Call.ListBlobs ∉ m.trace ∧ Call.ListBlobs ∉ rest) :=
  ⟨by decide, by decide, lists_called_once 5 scenario (by decide)⟩

theorem Engine.ListBlobs_ok_iff (engine : Engine) :
    engine.ListBlobs = Except.ok engine.blobs ↔ engine.listBlobsError = none := by
  unfold Engine.ListBlobs
  cases engine.listBlobsError <;> simp

theorem Engine.DeleteBlob_ok_iff (engine : Engine) (digest : String) :
    (∃ engine2, engine.DeleteBlob digest = Except.ok engine2) ↔
      engine.deleteBlobError digest = none := by
  unfold Engine.DeleteBlob
  cases engine.deleteBlobError digest <;> simp

/-- C17 (compaction ordering).  In the run of `GC` the compaction hook is
called at most once.  It is called if and only if root gathering, the mark
phase, `ListBlobs` and the deletion of every white digest succeed; it is then
the last engine call, after all the deletions of the sweep.  If the hook fails,
`GC` returns its error wrapped as `GC engine`, while the white digests stay
deleted and the black set is the one the mark phase computed. -/
theorem compaction_ordering (fuel : Nat) (engine : Engine)
    (hfuel : engine.blobs.length < fuel) :
    ∃ run, GC fuel engine = some run ∧
      run.trace.count Call.GC ≤ 1 ∧
      (Call.GC ∈ run.trace ↔
        ∃ names m, engine.ListReferences = Except.ok names ∧
          (∀ y ∈ names, ∃ d, engine.GetReference y = Except.ok d) ∧
          markRoots fuel { engine := engine, black := [] } (rootTrace names) 0 engine.roots
            = some m ∧
          m.err = none ∧ engine.ListBlobs = Except.ok engine.blobs ∧
          ∀ y ∈ white engine m.gc.black, ∃ engine2, engine.DeleteBlob y = Except.ok engine2) ∧
      (Call.GC ∈ run.trace →
        ∃ names m before,
          markRoots fuel { engine := engine, black := [] } (rootTrace names) 0 engine.roots
            = some m ∧
          run.black = m.gc.black ∧
          run.trace = before ++ [Call.GC] ∧ Call.GC ∉ before ∧
          deleted before = white engine m.gc.black ∧
          run.engine = engine.without (white engine m.gc.black) ∧
          (engine.gcError = none → run.err = none) ∧
          ∀ err, engine.gcError = some err →
            run.err = some (Failure.error (Error.wrap "GC engine" err))) := by
  obtain ⟨run, hrun⟩ := GC_returns fuel engine hfuel
  have hpath := GC_path fuel engine run hrun
  refine ⟨run, hrun, ?_, ?_, ?_⟩
  · obtain ⟨gets, ds, tail, ht, htail⟩ := hpath.shape
    have c3 := @count_GC_marked gets ds
    rw [ht, List.count_append, c3]
    rcases htail with rfl | ⟨dels, hook, rfl, hhook⟩
    · simp
    · have d3 : (dels.map Call.DeleteBlob).count Call.GC = 0 :=
        count_map_eq_zero _ _ _ (fun a => by simp)
      rw [List.count_cons_of_ne (by simp), List.count_append, d3]
      rcases hhook with rfl | rfl <;> simp
  · have hsame : ∀ (names names2 : List String) (m m2 : Marked),
        engine.ListReferences = Except.ok names → engine.ListReferences = Except.ok names2 →
        markRoots fuel { engine := engine, black := [] } (rootTrace names) 0 engine.roots
          = some m →
        markRoots fuel { engine := engine, black := [] } (rootTrace names2) 0 engine.roots
          = some m2 → names = names2 ∧ m = m2 := by
      intro names names2 m m2 h1 h2 hm hm2
      rw [h1] at h2
      simp only [Except.ok.injEq] at h2
      subst h2
      rw [hm] at hm2
      simp only [Option.some.injEq] at hm2
      exact ⟨rfl, hm2⟩
    cases hpath with
    | listReferences err hl =>
      constructor
      · intro h; simp at h
      · rintro ⟨names, m, hl2, _⟩
        rw [hl] at hl2
        simp at hl2
    | getReference names pre x post err hl hn hpre hx =>
      constructor
      · intro h
        exact absurd h (GC_not_mem_rootTrace _)
      · rintro ⟨names2, m, hl2, hres, _⟩
        rw [hl] at hl2
        simp only [Except.ok.injEq] at hl2
        subst hl2
        obtain ⟨d, hd⟩ := hres x (by rw [hn]; simp)
        rw [hx] at hd
        simp at hd
    | mark names m f hl _ hm he =>
      have hc := ((markRoots_spec engine fuel _ _ _ 0 m rfl hm).1).trace_facts
      constructor
      · intro h
        exact absurd h hc.2.1
      · rintro ⟨names2, m2, hl2, _, hm2, he2, _⟩
        obtain ⟨_, rfl⟩ := hsame names names2 m m2 hl hl2 hm hm2
        rw [he] at he2
        simp at he2
    | listBlobs names m err hl _ hm he hb =>
      have hc := ((markRoots_spec engine fuel _ _ _ 0 m rfl hm).1).trace_facts
      constructor
      · intro h
        simp [hc.2.1] at h
      · rintro ⟨names2, m2, _, _, _, _, hlb, _⟩
        rw [Engine.ListBlobs_ok_iff, hb] at hlb
        simp at hlb
    | deleteBlob names m pre x post err hl _ hm he hb hsplit hpre hx =>
      have hc := ((markRoots_spec engine fuel _ _ _ 0 m rfl hm).1).trace_facts
      constructor
      · intro h
        simp [hc.2.1] at h
      · rintro ⟨names2, m2, hl2, _, hm2, _, _, hdel⟩
        obtain ⟨_, rfl⟩ := hsame names names2 m m2 hl hl2 hm hm2
        have hxw : x ∈ white engine m.gc.black := by rw [hsplit]; simp
        have := (Engine.DeleteBlob_ok_iff engine x).mp (hdel x hxw)
        rw [hx] at this
        simp at this
    | compaction names m err hl hres hm he hb hdel hg =>
      constructor
      · intro _
        exact ⟨names, m, hl, hres, hm, he, (Engine.ListBlobs_ok_iff engine).mpr hb,
          fun y hy => (Engine.DeleteBlob_ok_iff engine y).mpr (hdel y hy)⟩
      · intro _; simp
    | done names m hl hres hm he hb hdel hg =>
      constructor
      · intro _
        exact ⟨names, m, hl, hres, hm, he, (Engine.ListBlobs_ok_iff engine).mpr hb,
          fun y hy => (Engine.DeleteBlob_ok_iff engine y).mpr (hdel y hy)⟩
      · intro _; simp
  · intro hmem
    cases hpath with
    | listReferences err hl => simp at hmem
    | getReference names pre x post err hl hn hpre hx =>
      exact absurd hmem (GC_not_mem_rootTrace _)
    | mark names m f hl _ hm he =>
      exact absurd hmem ((markRoots_spec engine fuel _ _ _ 0 m rfl hm).1).trace_facts.2.1
    | listBlobs names m err hl _ hm he hb =>
      have hc := ((markRoots_spec engine fuel _ _ _ 0 m rfl hm).1).trace_facts
      simp [hc.2.1] at hmem
    | deleteBlob names m pre x post err hl _ hm he hb hsplit hpre hx =>
      have hc := ((markRoots_spec engine fuel _ _ _ 0 m rfl hm).1).trace_facts
      simp [hc.2.1] at hmem
    | compaction names m err hl hres hm he hb hdel hg =>
      have hc := ((markRoots_spec engine fuel _ _ _ 0 m rfl hm).1).trace_facts
      refine ⟨names, m, m.trace ++ [Call.ListBlobs] ++
        (white engine m.gc.black).map Call.DeleteBlob, hm, rfl, rfl, ?_, ?_, rfl, ?_, ?_⟩
      · simp [hc.2.1]
      · simp [deleted_append, hc.1, deleted, deleted_map_DeleteBlob]
      · intro hn; rw [hg] at hn; simp at hn
      · intro e2 he2
        rw [hg] at he2
        simp only [Option.some.injEq] at he2
        subst he2
        rfl
    | done names m hl hres hm he hb hdel hg =>
      have hc := ((markRoots_spec engine fuel _ _ _ 0 m rfl hm).1).trace_facts
      refine ⟨names, m, m.trace ++ [Call.ListBlobs] ++
        (white engine m.gc.black).map Call.DeleteBlob, hm, rfl, rfl, ?_, ?_, rfl, ?_, ?_⟩
      · simp [hc.2.1]
      · simp [deleted_append, hc.1, deleted, deleted_map_DeleteBlob]
      · intro _; rfl
      · intro e2 he2
        rw [hg] at he2
        simp at he2

/-- Witness of C17: with a failing hook the run ends with the one call of the
hook, returns its error, and the orphan `O` stays deleted. -/
theorem compaction_ordering_witness :
    hookFails.blobs.length < 5 ∧
    (GC 5 hookFails).map (fun r => (r.err, r.engine.blobs, r.black, r.trace.drop 5)) =
      some (some (Failure.error (Error.wrap "GC engine" (Error.base "repack failed"))),
        ["A", "C", "L1"], ["L1", "C", "A"],
        [Call.ListBlobs, Call.DeleteBlob "O", Call.GC]) ∧
    ∃ run, GC 5 hookFails = some run ∧
      run.trace.count Call.GC ≤ 1 ∧
      (Call.GC ∈ run.trace ↔
        ∃ names m, hookFails.ListReferences = Except.ok names ∧
          (∀ y ∈ names, ∃ d, hookFails.GetReference y = Except.ok d) ∧
          markRoots 5 { engine := hookFails, black := [] } (rootTrace names) 0 hookFails.roots
            = some m ∧
          m.err = none ∧ hookFails.ListBlobs = Except.ok hookFails.blobs ∧
          ∀ y ∈ white hookFails m.gc.black,
            ∃ engine2, hookFails.DeleteBlob y = Except.ok engine2) ∧
      (Call.GC ∈ run.trace →
        ∃ names m before,
          markRoots 5 { engine := hookFails, black := [] } (rootTrace names) 0 hookFails.roots
            = some m ∧
          run.black = m.gc.black ∧
          run.trace = before ++ [Call.GC] ∧ Call.GC ∉ before ∧
          deleted before = white hookFails m.gc.black ∧
          run.engine = hookFails.without (white hookFails m.gc.black) ∧
          (hookFails.gcError = none → run.err = none) ∧
          ∀ err, hookFails.gcError = some err →
            run.err = some (Failure.error (Error.wrap "GC engine" err))) :=
  ⟨by decide, by decide, compaction_ordering 5 hookFails (by decide)⟩

/-- C19 (the black set only grows).  With a budget above the inventory size
`mark` returns, with or without error, and then every digest that was black
before the call is still black and the digest of the descriptor is black.
This includes the case where the fetch of that very descriptor fails: the
digest has been inserted before the fetch, and the error of the fetch is
returned as it is. -/
theorem black_only_grows (fuel : Nat) (gc : gcState) (trace : List Call) (d : Descriptor)
    (hfuel : gc.engine.blobs.length < fuel) :
    ∃ r, mark fuel gc trace d = some r ∧
      (∀ x ∈ gc.black, x ∈ r.gc.black) ∧ d.Digest ∈ r.gc.black ∧
      ∀ err, d.Digest ∉ gc.black → FromDescriptor gc.engine d = Except.error err →
        r.err = some (Failure.error err) ∧ r.gc.black = d.Digest :: gc.black ∧
        r.trace = trace ++ [Call.FromDescriptor d] := by
  obtain ⟨r, hr⟩ := mark_returns gc.engine fuel gc trace d rfl
    (lt_of_le_of_lt (unmarked_le_length gc.engine gc.black) hfuel)
  obtain ⟨hc, hself, _⟩ := mark_spec gc.engine fuel gc trace d r rfl hr
  refine ⟨r, hr, hc.subset, hself, ?_⟩
  intro err hnot hfail
  cases fuel with
  | zero => simp at hfuel
  | succ k =>
    simp only [mark, hnot, if_false, hfail, Option.some.injEq] at hr
    subst hr
    exact ⟨rfl, rfl, rfl⟩

/-- Witness of C19: marking the corrupt layer `L1` fails, and `L1` is black
all the same, next to the digest `A` that was black before. -/
theorem black_only_grows_witness :
    corruptLayer.blobs.length < 5 ∧
    (mark 5 { engine := corruptLayer, black := ["A"] } [] descL1).map
      (fun r => (r.err, r.gc.black)) =
      some (some (Failure.error (Error.base "corrupt blob")), ["L1", "A"]) ∧
    ∃ r, mark 5 { engine := corruptLayer, black := ["A"] } [] descL1 = some r ∧
      (∀ x ∈ ["A"], x ∈ r.gc.black) ∧ descL1.Digest ∈ r.gc.black ∧
      ∀ err, descL1.Digest ∉ ["A"] →
        FromDescriptor corruptLayer descL1 = Except.error err →
        r.err = some (Failure.error err) ∧ r.gc.black = descL1.Digest :: ["A"] ∧
        r.trace = [] ++ [Call.FromDescriptor descL1] :=
  ⟨by decide, by decide,
    black_only_grows 5 { engine := corruptLayer, black := ["A"] } [] descL1 (by decide)⟩

/-! ## The root at which the mark phase stops -/

theorem markRoots_append (fuel : Nat) :
    ∀ (pre : List Descriptor) (gc : gcState) (trace : List Call) (idx : Nat) (mp : Marked)
      (rest : List Descriptor),
      markRoots fuel gc trace idx pre = some mp → mp.err = none →
      markRoots fuel gc trace idx (pre ++ rest) =
        markRoots fuel mp.gc mp.trace (idx + pre.length) rest := by
  intro pre
  induction pre with
  | nil =>
    intro gc trace idx mp rest h _
    simp only [markRoots, Option.some.injEq] at h
    subst h
    rfl
  | cons d pre ih =>
    intro gc trace idx mp rest h he
    simp only [markRoots] at h
    simp only [List.cons_append, markRoots]
    cases hs : mark fuel gc trace d with
    | none => simp [hs] at h
    | some r1 =>
      simp only [hs] at h ⊢
      cases he1 : r1.err with
      | some f =>
        cases f with
        | error err =>
          simp only [he1, Option.some.injEq] at h
          subst h
          simp at he
        | panic p =>
          simp only [he1, Option.some.injEq] at h
          subst h
          simp at he
      | none =>
        simp only [he1] at h ⊢
        change markRoots fuel r1.gc r1.trace (idx + 1) (pre ++ rest) = _
        rw [ih r1.gc r1.trace (idx + 1) mp rest h he]
        have hidx : idx + 1 + pre.length = idx + (d :: pre).length := by
          simp only [List.length_cons]; omega
        rw [hidx]

/-- A failing mark phase stops at one root: the roots before it were marked
without error, `mark` fails on it, and the failure returned is the failure of
`mark` reported with the index of that root. -/
theorem markRoots_stops (fuel : Nat) :
    ∀ (root : List Descriptor) (gc : gcState) (trace : List Call) (idx : Nat) (m : Marked)
      (f : Failure),
      markRoots fuel gc trace idx root = some m → m.err = some f →
      ∃ pre x post mp r f0, root = pre ++ x :: post ∧
        markRoots fuel gc trace idx pre = some mp ∧ mp.err = none ∧
        mark fuel mp.gc mp.trace x = some r ∧ r.err = some f0 ∧
        m.gc = r.gc ∧ m.trace = r.trace ∧ f = reportRoot (idx + pre.length) f0 := by
  intro root
  induction root with
  | nil =>
    intro gc trace idx m f h hf
    simp only [markRoots, Option.some.injEq] at h
    subst h
    simp at hf
  | cons d rest ih =>
    intro gc trace idx m f h hf
    simp only [markRoots] at h
    cases hs : mark fuel gc trace d with
    | none => simp [hs] at h
    | some r1 =>
      simp only [hs] at h
      cases he1 : r1.err with
      | some f1 =>
        refine ⟨[], d, rest, { gc := gc, trace := trace, err := none }, r1, f1, rfl, rfl, rfl,
          hs, he1, ?_⟩
        cases f1 with
        | error err =>
          simp only [he1, Option.some.injEq] at h
          subst h
          simp only [Option.some.injEq] at hf
          exact ⟨rfl, rfl, hf.symm⟩
        | panic p =>
          simp only [he1, Option.some.injEq] at h
          subst h
          simp only [Option.some.injEq] at hf
          exact ⟨rfl, rfl, hf.symm⟩
      | none =>
        simp only [he1] at h
        obtain ⟨pre, x, post, mp, r, f0, hroot, hpre, hmp, hx, hr, hg, ht, hrep⟩ :=
          ih r1.gc r1.trace (idx + 1) m f h hf
        refine ⟨d :: pre, x, post, mp, r, f0, by rw [hroot]; rfl, ?_, hmp, hx, hr, hg, ht, ?_⟩
        · simp only [markRoots, hs, he1]
          exact hpre
        · rw [hrep]
          have hidx : idx + 1 + pre.length = idx + (d :: pre).length := by
            simp only [List.length_cons]; omega
          rw [hidx]

theorem Reachable.more_roots {engine : Engine} {root root2 : List Descriptor} {d : Descriptor}
    (h : Reachable engine root d) (hsub : ∀ x, x ∈ root → x ∈ root2) :
    Reachable engine root2 d := by
  induction h with
  | root hmem => exact Reachable.root (hsub _ hmem)
  | child _ hedge ih => exact Reachable.child ih hedge

theorem Coherent.fewer_roots {engine : Engine} {root root2 : List Descriptor}
    (h : Coherent engine root2) (hsub : ∀ x, x ∈ root → x ∈ root2) : Coherent engine root :=
  fun d d2 hd hd2 hdig => h d d2 (hd.more_roots hsub) (hd2.more_roots hsub) hdig

theorem twoCorrupt_coherent : Coherent twoCorrupt twoCorrupt.roots := by
  intro d d2 _ _ h
  simp [twoCorrupt, h]

/-- C16 (mark errors identify the failing root).  On a coherent store, when
`GC` returns an error from the mark phase (the references were listed and
resolved and `ListBlobs` was not reached), the error is the error of a fetch
wrapped as `marking root i`, where the root of index `i` reaches a descriptor
whose fetch returns that error and every descriptor reachable from the roots
of smaller index is fetched without error: `i` is the least such index.  The
roots were marked in index order up to `i` and no further: the run is the mark
phase over the first `i + 1` roots only, and every black digest is reachable
from these. -/
theorem mark_error_names_root (fuel : Nat) (engine : Engine)
    (hfuel : engine.blobs.length < fuel) (hco : Coherent engine engine.roots) :
    ∃ run, GC fuel engine = some run ∧
      ∀ names err, engine.ListReferences = Except.ok names →
        (∀ y ∈ names, ∃ d, engine.GetReference y = Except.ok d) →
        Call.ListBlobs ∉ run.trace → run.err = some (Failure.error err) →
        ∃ pre x post err0 d m,
          engine.roots = pre ++ x :: post ∧
          err = Error.wrap ("marking root " ++ toString pre.length) err0 ∧
          Relation.ReflTransGen (Edge engine) x d ∧
          FromDescriptor engine d = Except.error err0 ∧
          (∀ c, Reachable engine pre c → ∃ blob, FromDescriptor engine c = Except.ok blob) ∧
          markRoots fuel { engine := engine, black := [] } (rootTrace names) 0 (pre ++ [x])
            = some m ∧
          run.trace = m.trace ∧ run.black = m.gc.black ∧
          ∀ y ∈ run.black, ReachableDigest engine (pre ++ [x]) y := by
  obtain ⟨run, hrun⟩ := GC_returns fuel engine hfuel
  refine ⟨run, hrun, ?_⟩
  intro names err hl hres hnolist herr
  cases GC_path fuel engine run hrun with
  | listReferences e1 hl2 => rw [hl] at hl2; simp at hl2
  | getReference names2 pre x post e1 hl2 hn _ hx =>
    rw [hl] at hl2
    simp only [Except.ok.injEq] at hl2
    subst hl2
    obtain ⟨d, hd⟩ := hres x (by rw [hn]; simp)
    rw [hx] at hd
    simp at hd
  | listBlobs names2 m e1 _ _ _ _ _ => simp at hnolist
  | deleteBlob names2 m pre x post e1 _ _ _ _ _ _ _ _ => simp at hnolist
  | compaction names2 m e1 _ _ _ _ _ _ _ => simp at hnolist
  | done names2 m _ _ _ _ _ _ _ => simp at hnolist
  | mark names2 m f hl2 _ hm he =>
    rw [hl] at hl2
    simp only [Except.ok.injEq] at hl2
    subst hl2
    simp only [Option.some.injEq] at herr
    subst herr
    obtain ⟨pre, x, post, mp, r, f0, hroot, hpre, hmp, hx, hr, hg, ht, hrep⟩ :=
      markRoots_stops fuel engine.roots _ _ 0 m _ hm he
    have hengine : mp.gc.engine = engine := (markRoots_spec engine fuel pre _ _ 0 mp rfl hpre).1.1
    have hsub : ∀ c, c ∈ pre → c ∈ engine.roots := by
      intro c hc; rw [hroot]; exact List.mem_append_left _ hc
    cases f0 with
    | panic p => simp [reportRoot] at hrep
    | error err0 =>
      simp only [reportRoot, Failure.ofError, Failure.error.injEq, Nat.zero_add] at hrep
      obtain ⟨d2, hstar, hfa⟩ := mark_failure engine fuel mp.gc mp.trace x r _ hengine hx hr
      have htrunc : markRoots fuel { engine := engine, black := [] } (rootTrace names) 0
          (pre ++ [x]) =
            some ⟨r.gc, r.trace, some (reportRoot (0 + pre.length) (Failure.error err0))⟩ := by
        rw [markRoots_append fuel pre _ _ 0 mp [x] hpre hmp]
        simp [markRoots, hx, hr, reportRoot]
      refine ⟨pre, x, post, err0, d2, _, hroot, hrep, hstar, hfa, ?_, htrunc, ht, ?_, ?_⟩
      · intro c hc
        obtain ⟨blob, _, hf, _, _⟩ := (markRoots_complete hpre hmp (hco.fewer_roots hsub) c hc).2
        exact ⟨blob, hf⟩
      · show m.gc.black = r.gc.black
        rw [hg]
      · intro y hy
        have hy2 : y ∈ r.gc.black := by rw [← hg]; exact hy
        exact markRoots_sound htrunc y hy2

/-- Witness of C16: the second and the third root both reach a corrupt blob;
`GC` reports `marking root 1` with the error of `X1`, and the third root is
never fetched. -/
theorem mark_error_names_root_witness :
    twoCorrupt.blobs.length < 6 ∧ Coherent twoCorrupt twoCorrupt.roots ∧
    (GC 6 twoCorrupt).map (fun r => (r.err, fetched r.trace, r.black)) =
      some (some (Failure.error (Error.wrap "marking root 1" (Error.base "corrupt X1"))),
        ["D", "M1", "X1"], ["X1", "M1", "D"]) ∧
    ∃ run, GC 6 twoCorrupt = some run ∧
      ∀ names err, twoCorrupt.ListReferences = Except.ok names →
        (∀ y ∈ names, ∃ d, twoCorrupt.GetReference y = Except.ok d) →
        Call.ListBlobs ∉ run.trace → run.err = some (Failure.error err) →
        ∃ pre x post err0 d m,
          twoCorrupt.roots = pre ++ x :: post ∧
          err = Error.wrap ("marking root " ++ toString pre.length) err0 ∧
          Relation.ReflTransGen (Edge twoCorrupt) x d ∧
          FromDescriptor twoCorrupt d = Except.error err0 ∧
          (∀ c, Reachable twoCorrupt pre c →
            ∃ blob, FromDescriptor twoCorrupt c = Except.ok blob) ∧
          markRoots 6 { engine := twoCorrupt, black := [] } (rootTrace names) 0 (pre ++ [x])
            = some m ∧
          run.trace = m.trace ∧ run.black = m.gc.black ∧
          ∀ y ∈ run.black, ReachableDigest twoCorrupt (pre ++ [x]) y :=
  ⟨by decide, twoCorrupt_coherent, by decide,
    mark_error_names_root 6 twoCorrupt (by decide) twoCorrupt_coherent⟩

/-! ## The graph walker -/

mutual
/-- Where the walk meets no fixed-size array, `childDescriptors` returns the
edges of the spec. -/
theorem childDescriptors_edges :
    ∀ v : Value, meetsArray v = false → childDescriptors v = Except.ok (edges v)
  | Value.invalid, _ => by simp [childDescriptors, edges]
  | Value.descriptor d, _ => by simp [childDescriptors, edges]
  | Value.nilptr, _ => by simp [childDescriptors, edges]
  | Value.ptr elem, h => by
    simp only [meetsArray] at h
    simp only [childDescriptors, edges]
    exact childDescriptors_edges elem h
  | Value.array elems, h => by simp [meetsArray] at h
  | Value.slice elems, h => by
    simp only [meetsArray] at h
    simp only [childDescriptors, edges]
    exact childDescriptorsEach_edges elems h
  | Value.struct pkgPath fields, h => by
    simp only [meetsArray] at h
    simp only [childDescriptors, edges]
    by_cases hp : pkgPath = descriptorPkgPath
    · simp only [hp, if_true, ne_eq, not_true_eq_false, if_false] at h ⊢
      exact childDescriptorsEach_edges fields h
    · simp [hp]
  | Value.map entries, _ => by simp [childDescriptors, edges]
  | Value.other, _ => by simp [childDescriptors, edges]
/-- The same for the loops over elements and fields. -/
theorem childDescriptorsEach_edges :
    ∀ vs : List Value, meetsArrayAny vs = false →
      childDescriptorsEach vs = Except.ok (edgesEach vs)
  | [], _ => by simp [childDescriptorsEach, edgesEach]
  | v :: vs, h => by
    simp only [meetsArrayAny, Bool.or_eq_false_iff] at h
    simp only [childDescriptorsEach, edgesEach, childDescriptors_edges v h.1,
      childDescriptorsEach_edges vs h.2]
end

mutual
/-- Where the walk meets a fixed-size array, `childDescriptors` panics. -/
theorem childDescriptors_panics :
    ∀ v : Value, meetsArray v = true →
      childDescriptors v = Except.error sliceOfUnaddressableArray
  | Value.invalid, h => by simp [meetsArray] at h
  | Value.descriptor d, h => by simp [meetsArray] at h
  | Value.nilptr, h => by simp [meetsArray] at h
  | Value.ptr elem, h => by
    simp only [meetsArray] at h
    simp only [childDescriptors]
    exact childDescriptors_panics elem h
  | Value.array elems, _ => by simp [childDescriptors]
  | Value.slice elems, h => by
    simp only [meetsArray] at h
    simp only [childDescriptors]
    exact childDescriptorsEach_panics elems h
  | Value.struct pkgPath fields, h => by
    simp only [meetsArray] at h
    simp only [childDescriptors]
    by_cases hp : pkgPath = descriptorPkgPath
    · simp only [hp, if_true, ne_eq, not_true_eq_false, if_false] at h ⊢
      exact childDescriptorsEach_panics fields h
    · simp [hp] at h
  | Value.map entries, h => by simp [meetsArray] at h
  | Value.other, h => by simp [meetsArray] at h
/-- The same for the loops over elements and fields. -/
theorem childDescriptorsEach_panics :
    ∀ vs : List Value, meetsArrayAny vs = true →
      childDescriptorsEach vs = Except.error sliceOfUnaddressableArray
  | [], h => by simp [meetsArrayAny] at h
  | v :: vs, h => by
    simp only [meetsArrayAny, Bool.or_eq_true] at h
    cases hv : meetsArray v with
    | true => simp only [childDescriptorsEach, childDescriptors_panics v hv]
    | false =>
      rw [hv] at h
      have hrest : meetsArrayAny vs = true := by simpa using h
      simp only [childDescriptorsEach, childDescriptors_edges v hv,
        childDescriptorsEach_panics vs hrest]
end

theorem childDescriptorsEach_descriptors (ds : List Descriptor) :
    childDescriptorsEach (ds.map Value.descriptor) = Except.ok ds := by
  induction ds with
  | nil => simp [childDescriptorsEach]
  | cons d rest ih => simp [childDescriptorsEach, childDescriptors, ih]

theorem edgesEach_descriptors (ds : List Descriptor) :
    edgesEach (ds.map Value.descriptor) = ds := by
  induction ds with
  | nil => simp [edgesEach]
  | cons d rest ih => simp [edgesEach, edges, ih]

theorem childDescriptorsEach_others (n : Nat) :
    childDescriptorsEach (List.replicate n Value.other) = Except.ok [] := by
  induction n with
  | zero => simp [childDescriptorsEach]
  | succ n ih => simp [List.replicate_succ, childDescriptorsEach, childDescriptors, ih]

/-- C12 (graph walker completeness and order).  On every payload in which the
walk meets no fixed-size array, `childDescriptors` returns the edges of the
spec: every descriptor embedded at any depth below pointers, ordered
collections and composite records of the schema family, each occurrence once,
in pre-order.  A descriptor node yields exactly itself, a non-nil pointer
yields what its target yields, a composite record of the schema family yields
what the loop over its fields in declaration order yields, and a manifest
with config `C` and layers `L1, ..., Ln` yields `C, L1, ..., Ln`. -/
theorem walker_complete :
    (∀ v : Value, meetsArray v = false → childDescriptors v = Except.ok (edges v)) ∧
    (∀ d : Descriptor, childDescriptors (Value.descriptor d) = Except.ok [d]) ∧
    (∀ elem : Value, childDescriptors (Value.ptr elem) = childDescriptors elem) ∧
    (∀ fields : List Value,
      childDescriptors (Value.struct descriptorPkgPath fields) = childDescriptorsEach fields) ∧
    (∀ (v : Value) (vs : List Value) (here rest : List Descriptor),
      childDescriptors v = Except.ok here → childDescriptorsEach vs = Except.ok rest →
      childDescriptorsEach (v :: vs) = Except.ok (here ++ rest)) ∧
    (∀ (config : Descriptor) (layers : List Descriptor) (annotations : List (Value × Value)),
      childDescriptors (manifestValue config layers annotations)
        = Except.ok (config :: layers)) := by
  refine ⟨childDescriptors_edges, ?_, ?_, ?_, ?_, ?_⟩
  · intro d; simp [childDescriptors]
  · intro elem; simp [childDescriptors]
  · intro fields; simp [childDescriptors]
  · intro v vs here rest hv hvs
    simp [childDescriptorsEach, hv, hvs]
  · intro config layers annotations
    simp [manifestValue, childDescriptors, childDescriptorsEach,
      childDescriptorsEach_descriptors, descriptorPkgPath]

/-- Witness of C12: the manifest `A` of the scenario holds no array; the walk
yields its config `C` and its layer `L1`, in this order, and skips the version
record and the annotation map. -/
theorem walker_complete_witness :
    meetsArray manifestA = false ∧ edges manifestA = [descC, descL1] ∧
    childDescriptors manifestA = Except.ok (edges manifestA) ∧
    childDescriptors (manifestValue descC [descL1, descA] [(Value.other, Value.descriptor descA)])
      = Except.ok [descC, descL1, descA] :=
  ⟨by decide, by decide, walker_complete.1 manifestA (by decide),
    walker_complete.2.2.2.2.2 descC [descL1, descA] [(Value.other, Value.descriptor descA)]⟩

/-- C13 (ordered collections), evaluated on fixed-size arrays.  On every
fixed-size array, the empty one and an array of two descriptors included,
`childDescriptors` panics with the message of `reflect.Value.Slice`, where the
spec has the edges of the elements in order; the panic also comes up through
pointers, slices and records of the schema family that hold an array.  On a
slice of descriptors it returns them in order, and on the empty slice the
empty list. -/
theorem array_walk_panics :
    childDescriptors (Value.array [Value.descriptor descC, Value.descriptor descL1])
      = Except.error sliceOfUnaddressableArray ∧
    edges (Value.array [Value.descriptor descC, Value.descriptor descL1]) = [descC, descL1] ∧
    childDescriptors (Value.array []) = Except.error sliceOfUnaddressableArray ∧
    (∀ elems : List Value,
      childDescriptors (Value.array elems) = Except.error sliceOfUnaddressableArray) ∧
    (∀ v : Value, meetsArray v = true →
      childDescriptors v = Except.error sliceOfUnaddressableArray) ∧
    (∀ ds : List Descriptor,
      childDescriptors (Value.slice (ds.map Value.descriptor)) = Except.ok ds) ∧
    childDescriptors (Value.slice []) = Except.ok [] := by
  refine ⟨by simp [childDescriptors], by decide, by simp [childDescriptors], ?_,
    childDescriptors_panics, ?_, ?_⟩
  · intro elems; simp [childDescriptors]
  · intro ds; simp [childDescriptors, childDescriptorsEach_descriptors]
  · simp [childDescriptors, childDescriptorsEach]

/-- C14 (foreign and opaque nodes contribute no edges).  On a nil value, a nil
pointer, a scalar, a map whatever it holds, a byte slice, a struct declared
outside the package of the descriptor whatever it holds, and a pointer to
such a struct, `childDescriptors` returns the empty list and does not fail. -/
theorem foreign_nodes_no_edges :
    childDescriptors Value.invalid = Except.ok [] ∧
    childDescriptors Value.nilptr = Except.ok [] ∧
    childDescriptors Value.other = Except.ok [] ∧
    (∀ entries : List (Value × Value), childDescriptors (Value.map entries) = Except.ok []) ∧
    (∀ n : Nat, childDescriptors (Value.slice (List.replicate n Value.other)) = Except.ok []) ∧
    (∀ (pkgPath : String) (fields : List Value), pkgPath ≠ descriptorPkgPath →
      childDescriptors (Value.struct pkgPath fields) = Except.ok [] ∧
      childDescriptors (Value.ptr (Value.struct pkgPath fields)) = Except.ok []) := by
  refine ⟨by simp [childDescriptors], by simp [childDescriptors], by simp [childDescriptors],
    ?_, ?_, ?_⟩
  · intro entries; simp [childDescriptors]
  · intro n; simp [childDescriptors, childDescriptorsEach_others]
  · intro pkgPath fields hp
    simp [childDescriptors, hp]

/-- Witness of C14: a struct of package `os` that holds a descriptor and an
array, and a map that holds a descriptor, yield no edge and no failure. -/
theorem foreign_nodes_no_edges_witness :
    "os" ≠ descriptorPkgPath ∧
    childDescriptors (Value.struct "os" [Value.descriptor descC, Value.array []])
      = Except.ok [] ∧
    childDescriptors (Value.ptr (Value.struct "os" [Value.descriptor descC, Value.array []]))
      = Except.ok [] ∧
    childDescriptors (Value.map [(Value.other, Value.descriptor descC)]) = Except.ok [] :=
  ⟨by decide,
    (foreign_nodes_no_edges.2.2.2.2.2 "os" [Value.descriptor descC, Value.array []]
      (by decide)).1,
    (foreign_nodes_no_edges.2.2.2.2.2 "os" [Value.descriptor descC, Value.array []]
      (by decide)).2,
    foreign_nodes_no_edges.2.2.2.1 [(Value.other, Value.descriptor descC)]⟩

/-! ## The bundle of `unpack` -/

theorem startsWith_append (old rest : List Char) : startsWith (old ++ rest) old = true := by
  induction old with
  | nil => cases rest <;> simp [startsWith]
  | cons p ps ih => simp [startsWith, ih]

theorem replaceOnce_head (old new rest : List Char) (hold : old ≠ []) :
    replaceOnce old new (old ++ rest) = new ++ rest := by
  cases old with
  | nil => exact absurd rfl hold
  | cons p ps =>
    have hs := startsWith_append (p :: ps) rest
    simp only [List.cons_append] at hs ⊢
    simp only [replaceOnce, hs, if_true]
    have hd := List.drop_left (p :: ps) rest
    simp only [List.cons_append] at hd
    rw [hd]

theorem splitPath_ne_nil (s : List Char) : splitPath s ≠ [] := by
  cases s with
  | nil => simp [splitPath]
  | cons c cs =>
    simp only [splitPath]
    split
    · simp
    · split <;> simp

theorem splitPath_sep (a b : List Char) :
    splitPath (a ++ '/' :: b) = splitPath a ++ splitPath b := by
  induction a with
  | nil => simp [splitPath]
  | cons c cs ih =>
    simp only [List.cons_append, splitPath]
    by_cases hc : c = '/'
    · simp [hc, ih]
    · simp only [hc, if_false]
      change (match splitPath (cs ++ '/' :: b) with
        | [] => [[c]]
        | e :: es => (c :: e) :: es) = _
      rw [ih]
      cases hs : splitPath cs with
      | nil => exact absurd hs (splitPath_ne_nil cs)
      | cons e es => rfl

theorem splitPath_single (f : List Char) (h : '/' ∉ f) : splitPath f = [f] := by
  induction f with
  | nil => rfl
  | cons c cs ih =>
    have hc : c ≠ '/' := fun heq => h (by rw [heq]; exact List.mem_cons_self _ _)
    have hcs : '/' ∉ cs := fun hm => h (List.mem_cons_of_mem _ hm)
    simp [splitPath, hc, ih hcs]

theorem cleanStep_keeps (rooted : Bool) (stack : List (List Char)) (e : List Char)
    (h1 : e ≠ []) (h2 : e ≠ ['.']) (h3 : e ≠ ['.', '.']) :
    cleanStep rooted stack e = e :: stack := by
  simp [cleanStep, h1, h2, h3]

/-- Cleaning the path of a plain file name below a non-empty directory path
gives the cleaned directory path followed by the file name. -/
theorem cleanPath_entry (dir file : List Char) (hdir : dir ≠ []) (hsep : '/' ∉ file)
    (h1 : file ≠ []) (h2 : file ≠ ['.']) (h3 : file ≠ ['.', '.']) :
    cleanPath (dir ++ '/' :: file) = (cleanPath dir).entry file := by
  have hhead : (dir ++ '/' :: file).head? = dir.head? := by
    cases dir with
    | nil => exact absurd rfl hdir
    | cons c cs => rfl
  simp only [cleanPath, CleanPath.entry, hhead, splitPath_sep, splitPath_single file hsep,
    List.foldl_append, List.foldl_cons, List.foldl_nil, cleanStep_keeps _ _ file h1 h2 h3,
    List.reverse_cons]

/-- Cleaning a plain file name alone gives that one element, below the empty
path. -/
theorem cleanPath_alone (file : List Char) (hsep : '/' ∉ file)
    (h1 : file ≠ []) (h2 : file ≠ ['.']) (h3 : file ≠ ['.', '.']) :
    cleanPath file = (cleanPath []).entry file := by
  have hhead : file.head? ≠ some '/' := by
    cases file with
    | nil => simp
    | cons c cs =>
      intro hc
      simp only [List.head?_cons, Option.some.injEq] at hc
      exact hsep (by rw [hc]; exact List.mem_cons_self _ _)
  simp [cleanPath, CleanPath.entry, hhead, splitPath_single file hsep, splitPath, cleanStep,
    h1, h2, h3]

/-- Counterexample to C15 as stated: for the digest `sha512:abc` nothing is
replaced and the name of the mtree file keeps the `:`; for `sha256:a:b` the
second `:` stays; and for `sha256:/../../x` the mtree file is `x.mtree`,
outside the bundle directory. -/
theorem mtree_name_keeps_colon :
    mtreeName "sha512:abc" = "sha512:abc" ∧
    mtreeName "sha512:abc" ++ ".mtree" ≠ "sha512_abc.mtree" ∧
    ':' ∈ (mtreeName "sha512:abc" ++ ".mtree").toList ∧
    mtreePath "bundle" "sha512:abc" = "bundle/sha512:abc.mtree" ∧
    ':' ∈ (mtreeName "sha256:a:b" ++ ".mtree").toList ∧
    mtreePath "bundle" "sha256:/../../x" = "x.mtree" := by
  decide

/-- C15 (integrity-manifest file name), amended.  For every image digest made
of `sha256:` followed by characters other than `:` and `/`, and every bundle
path, the mtree file of `unpack` is named by the digest with `:` replaced by
`_`, followed by `.mtree`; this name holds no `:` and no `/`, and the file is
placed directly in the bundle directory: its path is the cleaned bundle path
followed by the file name as its one further element. -/
theorem mtree_name_sha256 (bundlePath hex : String)
    (hcolon : ':' ∉ hex.toList) (hslash : '/' ∉ hex.toList) :
    mtreeName ("sha256:" ++ hex) = "sha256_" ++ hex ∧
    ':' ∉ (mtreeName ("sha256:" ++ hex) ++ ".mtree").toList ∧
    '/' ∉ (mtreeName ("sha256:" ++ hex) ++ ".mtree").toList ∧
    mtreePath bundlePath ("sha256:" ++ hex) =
      String.mk (renderPath
        ((cleanPath bundlePath.toList).entry ("sha256_" ++ hex ++ ".mtree").toList)) ∧
    Clean bundlePath = String.mk (renderPath (cleanPath bundlePath.toList)) := by
  have hname : mtreeName ("sha256:" ++ hex) = "sha256_" ++ hex := by
    apply String.ext
    simp only [mtreeName, String.toList, String.data_append]
    exact replaceOnce_head "sha256:".data "sha256_".data hex.data (by decide)
  have hfile : ("sha256_" ++ hex ++ ".mtree").toList
      = 's' :: ("ha256_".data ++ hex.data ++ ".mtree".data) := by
    simp only [String.toList, String.data_append]
    rfl
  have hnocolon : ':' ∉ ("sha256_" ++ hex ++ ".mtree").toList := by
    simp only [String.toList, String.data_append, List.mem_append, not_or]
    exact ⟨⟨by decide, hcolon⟩, by decide⟩
  have hnoslash : '/' ∉ ("sha256_" ++ hex ++ ".mtree").toList := by
    simp only [String.toList, String.data_append, List.mem_append, not_or]
    exact ⟨⟨by decide, hslash⟩, by decide⟩
  have h1 : ("sha256_" ++ hex ++ ".mtree").toList ≠ [] := by rw [hfile]; simp
  have h2 : ("sha256_" ++ hex ++ ".mtree").toList ≠ ['.'] := by rw [hfile]; simp
  have h3 : ("sha256_" ++ hex ++ ".mtree").toList ≠ ['.', '.'] := by rw [hfile]; simp
  refine ⟨hname, by rw [hname]; exact hnocolon, by rw [hname]; exact hnoslash, ?_, rfl⟩
  simp only [mtreePath, Join, hname]
  by_cases hb : bundlePath = ""
  · have hne : ¬ ("sha256_" ++ hex ++ ".mtree" = "") := by
      intro heq
      apply h1
      rw [heq]
      rfl
    subst hb
    simp only [ne_eq, not_true_eq_false, if_false, hne, not_false_eq_true, if_true, Clean]
    rw [cleanPath_alone _ hnoslash h1 h2 h3]
    rfl
  · have hdir : bundlePath.toList ≠ [] := by
      intro hnil
      apply hb
      apply String.ext
      exact hnil
    simp only [ne_eq, hb, not_false_eq_true, if_true, Clean]
    have hlist : (bundlePath ++ "/" ++ ("sha256_" ++ hex ++ ".mtree")).toList
        = bundlePath.toList ++ '/' :: ("sha256_" ++ hex ++ ".mtree").toList := by
      simp only [String.toList, String.data_append]
      simp
    rw [hlist, cleanPath_entry _ _ hdir hnoslash h1 h2 h3]

/-- Witness of the amended C15: the digest `sha256:abc` gives the file
`sha256_abc.mtree` directly in the bundle directory, also when the bundle path
is not clean. -/
theorem mtree_name_sha256_witness :
    ':' ∉ "abc".toList ∧ '/' ∉ "abc".toList ∧
    mtreePath "bundle" "sha256:abc" = "bundle/sha256_abc.mtree" ∧
    mtreePath "/var/lib/../run//bundle/" "sha256:abc" = "/var/run/bundle/sha256_abc.mtree" ∧
    Clean "/var/lib/../run//bundle/" = "/var/run/bundle" ∧
    mtreeName ("sha256:" ++ "abc") = "sha256_" ++ "abc" ∧
    ':' ∉ (mtreeName ("sha256:" ++ "abc") ++ ".mtree").toList ∧
    '/' ∉ (mtreeName ("sha256:" ++ "abc") ++ ".mtree").toList ∧
    mtreePath "bundle" ("sha256:" ++ "abc") =
      String.mk (renderPath
        ((cleanPath "bundle".toList).entry ("sha256_" ++ "abc" ++ ".mtree").toList)) ∧
    Clean "bundle" = String.mk (renderPath (cleanPath "bundle".toList)) :=
  ⟨by decide, by decide, by decide, by decide, by decide,
    mtree_name_sha256 "bundle" "abc" (by decide) (by decide)⟩

/-- C18 (manifest-list rejection in `getConfig`).  For every descriptor whose
media type is not the image-manifest media type, `getConfig` returns the zero
image config together with an error that says `not implemented`, and makes no
engine call.  For a descriptor with the image-manifest media type the first
engine call fetches the manifest; if that fetch fails its error is returned
with the zero config, and if it yields a manifest the second and last engine
call fetches the blob of the manifest's `Config` descriptor, whose image config
is returned when the fetch succeeds. -/
theorem getConfig_rejects_other_media_types {Image : Type} (zero : Image)
    (asManifest : Value → Option Manifest) (asImage : Value → Option Image)
    (engine : Engine) (manDescriptor : Descriptor) :
    (manDescriptor.MediaType ≠ MediaTypeImageManifest →
      getConfig zero asManifest asImage engine manDescriptor =
        { outcome := Returned.result zero (some (Error.wrap "invalid --image tag" (Error.base
            ("descriptor does not point to ispec.MediaTypeImageManifest: not implemented: "
              ++ manDescriptor.MediaType)))),
          trace := [] }) ∧
    (manDescriptor.MediaType = MediaTypeImageManifest →
      (getConfig zero asManifest asImage engine manDescriptor).trace.head?
        = some (Call.FromDescriptor manDescriptor) ∧
      (∀ err, FromDescriptor engine manDescriptor = Except.error err →
        getConfig zero asManifest asImage engine manDescriptor =
          { outcome := Returned.result zero (some err),
            trace := [Call.FromDescriptor manDescriptor] }) ∧
      (∀ manBlob manifest, FromDescriptor engine manDescriptor = Except.ok manBlob →
        asManifest manBlob.Data = some manifest →
        (getConfig zero asManifest asImage engine manDescriptor).trace =
          [Call.FromDescriptor manDescriptor, Call.FromDescriptor manifest.Config] ∧
        (∀ err, FromDescriptor engine manifest.Config = Except.error err →
          (getConfig zero asManifest asImage engine manDescriptor).outcome =
            Returned.result zero (some err)) ∧
        (∀ configBlob image, FromDescriptor engine manifest.Config = Except.ok configBlob →
          asImage configBlob.Data = some image →
          (getConfig zero asManifest asImage engine manDescriptor).outcome =
            Returned.result image none))) := by
  constructor
  · intro hne
    simp [getConfig, hne]
  · intro heq
    refine ⟨?_, ?_, ?_⟩
    · simp only [getConfig, heq, ne_eq, not_true_eq_false, if_false]
      cases FromDescriptor engine manDescriptor with
      | error err => rfl
      | ok manBlob =>
        simp only
        cases asManifest manBlob.Data with
        | none => rfl
        | some manifest =>
          simp only
          cases FromDescriptor engine manifest.Config with
          | error err => rfl
          | ok configBlob =>
            simp only
            cases asImage configBlob.Data <;> rfl
    · intro err herr
      simp [getConfig, heq, herr]
    · intro manBlob manifest hman hasm
      refine ⟨?_, ?_, ?_⟩
      · simp only [getConfig, heq, ne_eq, not_true_eq_false, if_false, hman, hasm]
        cases FromDescriptor engine manifest.Config with
        | error err => rfl
        | ok configBlob =>
          simp only
          cases asImage configBlob.Data <;> rfl
      · intro err herr
        simp [getConfig, heq, hman, hasm, herr]
      · intro configBlob image hcb himg
        simp [getConfig, heq, hman, hasm, hcb, himg]

/-- Witness of C18: on the image store, a layer descriptor is rejected without
any engine call, and the manifest descriptor `M` makes `getConfig` fetch `M`
and then its config `C`. -/
theorem getConfig_rejects_other_media_types_witness :
    descL1.MediaType ≠ MediaTypeImageManifest ∧
    getConfig 0 asManifestValue asImageValue imageStore descL1 =
      { outcome := Returned.result 0 (some (Error.wrap "invalid --image tag" (Error.base
          ("descriptor does not point to ispec.MediaTypeImageManifest: not implemented: "
            ++ descL1.MediaType)))),
        trace := [] } ∧
    descM.MediaType = MediaTypeImageManifest ∧
    (getConfig 0 asManifestValue asImageValue imageStore descM).trace =
      [Call.FromDescriptor descM, Call.FromDescriptor descC] ∧
    (getConfig 0 asManifestValue asImageValue imageStore descM).outcome =
      Returned.result 1 none :=
  ⟨by decide,
    (getConfig_rejects_other_media_types 0 asManifestValue asImageValue imageStore descL1).1
      (by decide),
    rfl,
    (((getConfig_rejects_other_media_types 0 asManifestValue asImageValue imageStore descM).2
      rfl).2.2
      { MediaType := MediaTypeImageManifest, Digest := "M", Size := 9,
        Data := manifestValue descC [descL1] [] }
      { Config := descC, Layers := [descL1] } (by rfl) (by rfl)).1,
    (((getConfig_rejects_other_media_types 0 asManifestValue asImageValue imageStore descM).2
      rfl).2.2
      { MediaType := MediaTypeImageManifest, Digest := "M", Size := 9,
        Data := manifestValue descC [descL1] [] }
      { Config := descC, Layers := [descL1] } (by rfl) (by rfl)).2.2
      { MediaType := "config", Digest := "C", Size := 1,
        Data := Value.ptr (Value.struct descriptorPkgPath [Value.other]) }
      1 (by rfl) (by rfl)⟩

end Umoci
